import Mathlib

/-
  Verification development for the ack-ai tag-and-extent scanner
  (src/analyzer.ts).

  Shallow embedding conventions:
  * Text is a list of UTF-16 code units (`List Nat`); `charAt` models
    `text.charCodeAt(i)` with out-of-range reads giving a sentinel 0
    (JS yields NaN there; every comparison performed on such reads in the
    source compares against nonzero codes, so 0 is observationally
    equivalent).
  * Each `while` loop of the source becomes a fuel-indexed structural
    recursion (`...Go` functions).  The fuel only bounds the number of
    iterations; every loop of the source advances its cursor by at least
    one position per iteration, so instantiating the fuel with
    `length + 2` makes the exhaustion branch unreachable.  Exhaustion
    branches return the value the source loop produces on falling off the
    end of the text.
  * The regular expressions of the source are constant patterns; each is
    embedded as the explicit matching function it denotes (documented at
    its definition).
-/

namespace AckAi

/-- Convert a Lean string to the list of code units modelling a JS string. -/
def codes (s : String) : List Nat := s.data.map Char.toNat

/-- Model of `text.charCodeAt(i)`; out-of-range reads give the sentinel 0. -/
def charAt (t : List Nat) (i : Nat) : Nat := t.getD i 0

/-- Model of `text.slice(a, b)` for `a ≤ b`. -/
def sliceL (t : List Nat) (a b : Nat) : List Nat := (t.drop a).take (b - a)

/-- The JS regex `\s` character class (also the set trimmed by `trim()`). -/
def isJsSpace (c : Nat) : Bool :=
  c = 9 || c = 10 || c = 11 || c = 12 || c = 13 || c = 32 || c = 160 ||
  c = 0x1680 || (0x2000 ≤ c && c ≤ 0x200A) || c = 0x2028 || c = 0x2029 ||
  c = 0x202F || c = 0x205F || c = 0x3000 || c = 0xFEFF

/-- Line terminators, the characters the regex `.` does not match. -/
def isLineTerm (c : Nat) : Bool :=
  c = 10 || c = 13 || c = 0x2028 || c = 0x2029

/-- ASCII model of `toLowerCase` / the `i` regex flag. -/
def toLowerCode (c : Nat) : Nat := if 65 ≤ c ∧ c ≤ 90 then c + 32 else c

/-- Lower-casing a whole string. -/
def lowerL (l : List Nat) : List Nat := l.map toLowerCode

/-- Whether the literal `p` occurs in `t` starting exactly at offset `i`. -/
def startsWithAt (t : List Nat) (i : Nat) (p : List Nat) : Bool :=
  sliceL t i (i + p.length) == p

/-- End of the maximal `\s*` run of `t` starting at `i` (loop body). -/
def wsEndGo (t : List Nat) : Nat → Nat → Nat
  | 0, i => i
  | f+1, i =>
    if i < t.length then
      if isJsSpace (charAt t i) then wsEndGo t f (i+1) else i
    else i

/-- End of the maximal `\s*` run of `t` starting at `i`. -/
def wsEnd (t : List Nat) (i : Nat) : Nat := wsEndGo t (t.length + 2) i

/-- End of the maximal `.*` run (greedy dot) of `t` starting at `i`. -/
def dotEndGo (t : List Nat) : Nat → Nat → Nat
  | 0, i => i
  | f+1, i =>
    if i < t.length then
      if isLineTerm (charAt t i) then i else dotEndGo t f (i+1)
    else i

/-- End of the maximal `.*` run of `t` starting at `i`. -/
def dotEnd (t : List Nat) (i : Nat) : Nat := dotEndGo t (t.length + 2) i

/-- First occurrence of the two-character literal `a b` at offset `≥ k`. -/
def findSub2Go (t : List Nat) (a b : Nat) : Nat → Nat → Option Nat
  | 0, _ => none
  | f+1, k =>
    if k < t.length then
      if k + 1 < t.length ∧ charAt t k = a ∧ charAt t (k+1) = b then some k
      else findSub2Go t a b f (k+1)
    else none

/-- Model of `text.indexOf(ab, k)` for a two-character literal. -/
def findSub2 (t : List Nat) (a b k : Nat) : Option Nat :=
  findSub2Go t a b (t.length + 2) k

/-- First occurrence of the three-character literal `a a a` at offset `≥ k`. -/
def findSub3Go (t : List Nat) (a : Nat) : Nat → Nat → Option Nat
  | 0, _ => none
  | f+1, k =>
    if k < t.length then
      if k + 2 < t.length ∧ charAt t k = a ∧ charAt t (k+1) = a ∧
          charAt t (k+2) = a then some k
      else findSub3Go t a f (k+1)
    else none

/-- First occurrence of a tripled quote character at offset `≥ k`. -/
def findSub3 (t : List Nat) (a k : Nat) : Option Nat :=
  findSub3Go t a (t.length + 2) k

/-- First occurrence of character `c` at offset `≥ k` (loop body). -/
def indexOfCGo (t : List Nat) (c : Nat) : Nat → Nat → Option Nat
  | 0, _ => none
  | f+1, k =>
    if k < t.length then
      if charAt t k = c then some k else indexOfCGo t c f (k+1)
    else none

/-- Model of `text.indexOf(c, k)` for a single character. -/
def indexOfC (t : List Nat) (c k : Nat) : Option Nat :=
  indexOfCGo t c (t.length + 2) k

/-- First non-whitespace offset `≥ k`: the `NON_WHITESPACE_PATTERN` (`/\S/g`)
match starting the search at `k`. -/
def firstNonWsGo (t : List Nat) : Nat → Nat → Option Nat
  | 0, _ => none
  | f+1, k =>
    if k < t.length then
      if isJsSpace (charAt t k) then firstNonWsGo t f (k+1) else some k
    else none

/-- First non-whitespace offset of `t` at `≥ k`. -/
def firstNonWsFrom (t : List Nat) (k : Nat) : Option Nat :=
  firstNonWsGo t (t.length + 2) k

/-- Loop body of `skipString` (src/analyzer.ts `skipString`): advance past a
quoted string, `\` consuming the next character unconditionally. -/
def skipStringGo (t : List Nat) (len q : Nat) : Nat → Nat → Nat
  | 0, _ => len
  | f+1, i =>
    if i < len then
      if charAt t i = 92 then skipStringGo t len q f (i+2)
      else if charAt t i = q then i + 1
      else skipStringGo t len q f (i+1)
    else len

/-- Model of `skipString(text, start, quoteChar)`. -/
def skipString (t : List Nat) (start q : Nat) : Nat :=
  skipStringGo t t.length q (t.length + 2) (start + 1)

/-- The bracketed-character-class loop inside `skipRegexLiteral`: scan a
`[...]` class, returning the cursor position after it (or wherever the
loop stops at end of text). -/
def charClassGo (t : List Nat) (len : Nat) : Nat → Nat → Nat
  | 0, i => i
  | f+1, i =>
    if i < len then
      if charAt t i = 92 then charClassGo t len f (i+2)
      else if charAt t i = 93 then i + 1
      else charClassGo t len f (i+1)
    else i

/-- The flag-skipping loop of `skipRegexLiteral`: skip ASCII letters. -/
def flagsGo (t : List Nat) (len : Nat) : Nat → Nat → Nat
  | 0, i => i
  | f+1, i =>
    if i < len then
      if (97 ≤ charAt t i ∧ charAt t i ≤ 122) ∨
          (65 ≤ charAt t i ∧ charAt t i ≤ 90) then flagsGo t len f (i+1)
      else i
    else i

/-- Main loop of `skipRegexLiteral` (src/analyzer.ts). -/
def skipRegexGo (t : List Nat) (len start : Nat) : Nat → Nat → Nat
  | 0, _ => len
  | f+1, i =>
    if i < len then
      if charAt t i = 92 then skipRegexGo t len start f (i+2)
      else if charAt t i = 91 then
        skipRegexGo t len start f (charClassGo t len (len + 2) (i+1))
      else if charAt t i = 47 then flagsGo t len (len + 2) (i+1)
      else if charAt t i = 10 ∨ charAt t i = 13 then start + 1
      else skipRegexGo t len start f (i+1)
    else len

/-- Model of `skipRegexLiteral(text, start, len)`. -/
def skipRegexLiteral (t : List Nat) (start len : Nat) : Nat :=
  skipRegexGo t len start (len + 2) (start + 1)

/-- Combined loops of `skipTemplateLiteral` (src/analyzer.ts).  Mode `false`
is the outer backtick loop (argument `d` ignored); mode `true` is the inner
`${...}` interpolation loop with brace depth `d`.  The source expresses the
inner loop inline and re-enters `skipTemplateLiteral` recursively for nested
template literals; here the recursion is threaded through the shared fuel. -/
def tmplGo (t : List Nat) (len : Nat) : Nat → Bool → Nat → Nat → Nat
  | 0, true, i, _ => i
  | 0, false, _, _ => len
  | f+1, false, i, _ =>
    if i < len then
      if charAt t i = 92 then tmplGo t len f false (i+2) 0
      else if charAt t i = 96 then i + 1
      else if charAt t i = 36 ∧ charAt t (i+1) = 123 then
        tmplGo t len f false (tmplGo t len f true (i+2) 1) 0
      else tmplGo t len f false (i+1) 0
    else len
  | f+1, true, i, d =>
    if i < len ∧ 0 < d then
      if charAt t i = 123 then tmplGo t len f true (i+1) (d+1)
      else if charAt t i = 125 then tmplGo t len f true (i+1) (d-1)
      else if charAt t i = 92 then tmplGo t len f true (i+2) d
      else if charAt t i = 34 ∨ charAt t i = 39 then
        tmplGo t len f true (skipString t i (charAt t i)) d
      else if charAt t i = 96 then
        tmplGo t len f true (tmplGo t len f false (i+1) 0) d
      else tmplGo t len f true (i+1) d
    else i

/-- Model of `skipTemplateLiteral(text, start, len)`. -/
def skipTemplateLiteral (t : List Nat) (start len : Nat) : Nat :=
  tmplGo t len (len + 2) false (start + 1) 0

/-- Model of `canStartRegex(lastChar)` (src/analyzer.ts). -/
def canStartRegex (lastChar : Nat) : Bool :=
  lastChar = 61 || lastChar = 40 || lastChar = 91 || lastChar = 44 ||
  lastChar = 58 || lastChar = 59 || lastChar = 33 || lastChar = 38 ||
  lastChar = 124 || lastChar = 63 || lastChar = 123 || lastChar = 125 ||
  lastChar = 43 || lastChar = 45 || lastChar = 42 || lastChar = 37 ||
  lastChar = 60 || lastChar = 62 || lastChar = 126 || lastChar = 94

/-- Loop of `hasComplexContentInRange(text, start, end)` (src/analyzer.ts):
whether the half-open range contains a quote, backtick, or a `//` or `/*`
opener. -/
def hasComplexGo (t : List Nat) (e : Nat) : Nat → Nat → Bool
  | 0, _ => false
  | f+1, i =>
    if i < e then
      if charAt t i = 34 ∨ charAt t i = 39 ∨ charAt t i = 96 then true
      else if charAt t i = 47 ∧ i + 1 < e ∧
          (charAt t (i+1) = 47 ∨ charAt t (i+1) = 42) then true
      else hasComplexGo t e f (i+1)
    else false

/-- Model of `hasComplexContentInRange(text, start, end)`. -/
def hasComplexContentInRange (t : List Nat) (s e : Nat) : Bool :=
  hasComplexGo t e (e + 2) s

/-- Fast-path brace counting of `findBlockEndOffset`: simple depth counting
from just after the opening brace, no skip logic.  `d` is `braceDepth`. -/
def fastBraceGo (t : List Nat) (len : Nat) : Nat → Nat → Int → Nat
  | 0, _, _ => len
  | f+1, j, d =>
    if j < len then
      if charAt t j = 123 then fastBraceGo t len f (j+1) (d+1)
      else if charAt t j = 125 then
        if d - 1 = 0 then j + 1 else fastBraceGo t len f (j+1) (d-1)
      else fastBraceGo t len f (j+1) d
    else len

/-- Loop of `findBlockEndOffsetCareful` (src/analyzer.ts): brace matching
with string/template/comment/regex skipping.  `d` is `braceDepth`, `ls` the
last significant character. -/
def carefulGo (t : List Nat) (len : Nat) : Nat → Nat → Int → Nat → Nat
  | 0, _, _, _ => len
  | f+1, i, d, ls =>
    if i < len then
      if charAt t i = 32 ∨ charAt t i = 9 ∨ charAt t i = 10 ∨
          charAt t i = 13 then carefulGo t len f (i+1) d ls
      else if charAt t i = 47 ∧ charAt t (i+1) = 47 then
        match indexOfC t 10 i with
        | none => len
        | some k => carefulGo t len f (k+1) d ls
      else if charAt t i = 47 ∧ charAt t (i+1) = 42 then
        match findSub2 t 42 47 (i+2) with
        | none => len
        | some k => carefulGo t len f (k+2) d ls
      else if charAt t i = 47 ∧ canStartRegex ls ∧
          charAt t (i+1) ≠ 47 ∧ charAt t (i+1) ≠ 42 then
        carefulGo t len f (skipRegexLiteral t i len) d 47
      else if charAt t i = 96 then
        carefulGo t len f (skipTemplateLiteral t i len) d 96
      else if charAt t i = 34 then carefulGo t len f (skipString t i 34) d 34
      else if charAt t i = 39 then carefulGo t len f (skipString t i 39) d 39
      else if charAt t i = 123 then carefulGo t len f (i+1) (d+1) 123
      else if charAt t i = 125 then
        if d - 1 = 0 then i + 1 else carefulGo t len f (i+1) (d-1) 125
      else carefulGo t len f (i+1) d (charAt t i)
    else len

/-- Model of `findBlockEndOffsetCareful(text, startOffset, len)`:
`startOffset` points at the opening brace of the block. -/
def findBlockEndOffsetCareful (t : List Nat) (startOffset len : Nat) : Nat :=
  carefulGo t len (len + 2) (startOffset + 1) 1 123

/-- Phase 2 of `findBlockEndOffset`, the code after the brace-opener search:
the unterminated check, the fast/careful choice and the dispatch.  `i` is
where the opener search stopped. -/
def afterOpenerSearch (t : List Nat) (len i : Nat) : Nat :=
  if i < len ∧ charAt t i = 123 then
    if hasComplexContentInRange t (i+1) len then
      findBlockEndOffsetCareful t i len
    else fastBraceGo t len (len + 2) (i+1) 1
  else len

/-- Phase 1 loop of `findBlockEndOffset` (src/analyzer.ts): scan for the
opening brace of the body, tracking parenthesis depth `pd` (and the unused
`maxParenDepth` `mpd`), skipping strings/templates/regexes, returning at a
top-level `;`, and breaking to `afterOpenerSearch` at a top-level brace. -/
def openerGo (t : List Nat) (len : Nat) : Nat → Nat → Int → Int → Nat → Nat
  | 0, _, _, _, _ => len
  | f+1, i, pd, mpd, ls =>
    if i < len then
      if charAt t i = 32 ∨ charAt t i = 9 ∨ charAt t i = 10 ∨
          charAt t i = 13 then openerGo t len f (i+1) pd mpd ls
      else if charAt t i = 47 ∧ canStartRegex ls ∧
          charAt t (i+1) ≠ 47 ∧ charAt t (i+1) ≠ 42 then
        openerGo t len f (skipRegexLiteral t i len) pd mpd 47
      else if charAt t i = 34 ∨ charAt t i = 39 ∨ charAt t i = 96 then
        openerGo t len f
          (if charAt t i = 96 then skipTemplateLiteral t i len
           else skipString t i (charAt t i))
          pd mpd (charAt t i)
      else if charAt t i = 40 then
        openerGo t len f (i+1) (pd+1) (max mpd (pd+1)) 40
      else if charAt t i = 41 then openerGo t len f (i+1) (pd-1) mpd 41
      else if charAt t i = 123 ∧ pd = 0 then afterOpenerSearch t len i
      else if charAt t i = 59 ∧ pd = 0 then i + 1
      else openerGo t len f (i+1) pd mpd (charAt t i)
    else afterOpenerSearch t len i

/-- Model of `findBlockEndOffset(text, startOffset)` (src/analyzer.ts). -/
def findBlockEndOffset (t : List Nat) (startOffset : Nat) : Nat :=
  openerGo t t.length (t.length + 2) startOffset 0 0 0

/-- Model of the backward scan of `findPythonBlockEndOffset` that finds the
start of the line containing an offset. -/
def findLineStartBack (t : List Nat) : Nat → Nat
  | 0 => 0
  | i+1 => if charAt t i = 10 then i + 1 else findLineStartBack t i

/-- Indentation scan of `findPythonBlockEndOffset`: from `i`, count spaces
as 1 and tabs as 4, returning the accumulated indent and the offset of the
first non-indentation character. -/
def indentFromGo (t : List Nat) (len : Nat) : Nat → Nat → Nat → Nat × Nat
  | 0, i, acc => (acc, i)
  | f+1, i, acc =>
    if i < len then
      if charAt t i = 32 then indentFromGo t len f (i+1) (acc+1)
      else if charAt t i = 9 then indentFromGo t len f (i+1) (acc+4)
      else (acc, i)
    else (acc, i)

/-- Indentation of the line region starting at offset `i`. -/
def indentFrom (t : List Nat) (i : Nat) : Nat × Nat :=
  indentFromGo t t.length (t.length + 2) i 0

/-- Model of the forward scans `while (p < len && t.charCodeAt(p) !== 10)`:
the offset of the next newline at `≥ i`, or the length if none. -/
def lineEnd10Go (t : List Nat) (len : Nat) : Nat → Nat → Nat
  | 0, i => i
  | f+1, i =>
    if i < len then
      if charAt t i = 10 then i else lineEnd10Go t len f (i+1)
    else i

/-- Offset of the next newline of `t` at `≥ i`, or `t.length`. -/
def findLineEnd10 (t : List Nat) (i : Nat) : Nat :=
  lineEnd10Go t t.length (t.length + 2) i

/-- Line-scanning loop of `findPythonBlockEndOffset` (src/analyzer.ts).
`pos` is the scan position, `lce` the `lastContentEnd` accumulator. -/
def pyGo (t : List Nat) (len defIndent : Nat) : Nat → Nat → Nat → Nat
  | 0, _, _ => len
  | f+1, pos, lce =>
    if pos < len then
      match indentFrom t pos with
      | (lineIndent, linePos) =>
        if linePos ≥ len ∨ charAt t linePos = 10 then
          pyGo t len defIndent f (linePos + 1) lce
        else if charAt t linePos = 35 then
          if lineIndent > defIndent then
            pyGo t len defIndent f (findLineEnd10 t linePos + 1)
              (findLineEnd10 t linePos)
          else pyGo t len defIndent f (linePos + 1) lce
        else if lineIndent ≤ defIndent then lce
        else
          pyGo t len defIndent f (findLineEnd10 t linePos + 1)
            (findLineEnd10 t linePos)
    else len

/-- Model of `findPythonBlockEndOffset(text, startOffset)` (src/analyzer.ts). -/
def findPythonBlockEndOffset (t : List Nat) (startOffset : Nat) : Nat :=
  let len := t.length
  let lineStart := findLineStartBack t startOffset
  let defIndent := (indentFrom t lineStart).1
  let p0 := findLineEnd10 t startOffset
  let pos := if p0 < len then p0 + 1 else p0
  pyGo t len defIndent (len + 2) pos p0

/-- The five module-level global comment patterns of src/analyzer.ts:
`JS_DOC_BLOCK_PATTERN`, `JS_ALL_COMMENTS_PATTERN`, `PY_DOC_BLOCK_PATTERN`,
`PY_ALL_COMMENTS_PATTERN`, `HASH_ALL_COMMENTS_PATTERN`.  (For the hash
family the source uses the same pattern object for both roles.) -/
inductive PatternId where
  | jsDoc | jsAll | pyDoc | pyAll | hashAll
deriving DecidableEq, Repr

/-- Match of the alternative `\/\*\*[\s\S]*?\*\/` at offset `s`: a literal
`/**` followed lazily by the first `*/` at offset `≥ s+3`. -/
def jsDocAt (t : List Nat) (s : Nat) : Option Nat :=
  if startsWithAt t s (codes "/**") then
    (findSub2 t 42 47 (s+3)).map (fun k => k + 2)
  else none

/-- Match of the alternative `\/\/.*` at offset `s`. -/
def jsLineAt (t : List Nat) (s : Nat) : Option Nat :=
  if startsWithAt t s (codes "//") then some (dotEnd t (s+2)) else none

/-- Match of `"""[\s\S]*?"""` (or the `\x27\x27\x27` variant, per `q`) at
offset `s`. -/
def pyTripleAt (t : List Nat) (s q : Nat) : Option Nat :=
  if startsWithAt t s [q, q, q] then
    (findSub3 t q (s+3)).map (fun k => k + 3)
  else none

/-- Match of the alternative `#.*` at offset `s`. -/
def hashLineAt (t : List Nat) (s : Nat) : Option Nat :=
  if charAt t s = 35 ∧ s < t.length then some (dotEnd t (s+1)) else none

/-- Whether some alternative of the pattern matches at exactly offset `s`
(alternatives tried left to right, as the regex engine does); returns the
end offset of the match. -/
def matchCommentAt (pid : PatternId) (t : List Nat) (s : Nat) : Option Nat :=
  match pid with
  | .jsDoc => jsDocAt t s
  | .jsAll =>
    match jsDocAt t s with
    | some e => some e
    | none => jsLineAt t s
  | .pyDoc =>
    match pyTripleAt t s 34 with
    | some e => some e
    | none => pyTripleAt t s 39
  | .pyAll =>
    match pyTripleAt t s 34 with
    | some e => some e
    | none =>
      match pyTripleAt t s 39 with
      | some e => some e
      | none => hashLineAt t s
  | .hashAll => hashLineAt t s

/-- Position scan of `pattern.exec(text)` for a global pattern whose
`lastIndex` is `pos`: the engine tries successive start offsets until one
matches. -/
def execGo (pid : PatternId) (t : List Nat) : Nat → Nat → Option (Nat × Nat)
  | 0, _ => none
  | f+1, s =>
    if s < t.length then
      match matchCommentAt pid t s with
      | some e => some (s, e)
      | none => execGo pid t f (s+1)
    else none

/-- Model of `pattern.exec(text)` searching from offset `pos`: the next
comment match `(start, end)` at `≥ pos`, if any. -/
def execPattern (pid : PatternId) (t : List Nat) (pos : Nat) : Option (Nat × Nat) :=
  execGo pid t (t.length + 2) pos

/-- Whether the configured tag matches (case-insensitively, as a literal —
the source regex-escapes it) inside `comment` at offset `j`. -/
def tagHitAt (tagL comment : List Nat) (j : Nat) : Bool :=
  lowerL (sliceL comment j (j + tagL.length)) == lowerL tagL

/-- Search loop for the first offset at which the tag matches. -/
def findTagIdxGo (tagL comment : List Nat) : Nat → Nat → Option Nat
  | 0, _ => none
  | f+1, j =>
    if j ≤ comment.length then
      if tagHitAt tagL comment j then some j
      else findTagIdxGo tagL comment f (j+1)
    else none

/-- First offset at which the tag matches inside `comment`. -/
def findTagIdx (tagL comment : List Nat) : Option Nat :=
  findTagIdxGo tagL comment (comment.length + 2) 0

/-- Model of `tagRegex.exec(fullComment)` for the pattern
`escapedTag\s*(.*)` with the `i` flag: returns the match index, the length
of the whole match `match[0]`, and the captured trailing text `match[1]`. -/
def tagExec (tagL comment : List Nat) : Option (Nat × Nat × List Nat) :=
  match findTagIdx tagL comment with
  | none => none
  | some j =>
    let q := wsEnd comment (j + tagL.length)
    let e := dotEnd comment q
    some (j, e - j, sliceL comment q e)

/-- Drop a trailing run of whitespace. -/
def dropTrailWs (l : List Nat) : List Nat :=
  (l.reverse.dropWhile (fun c => isJsSpace c)).reverse

/-- Model of `.replace(/\s*\*\/$/, "")`: strip a final `*/` together with
the whitespace immediately before it. -/
def stripJsClose (l : List Nat) : List Nat :=
  if l.reverse.take 2 == [47, 42] then dropTrailWs (l.take (l.length - 2))
  else l

/-- Model of `.replace(/\s*(?:"""|\x27\x27\x27)$/, "")`: strip a final
docstring delimiter together with the whitespace immediately before it. -/
def stripPyClose (l : List Nat) : List Nat :=
  if l.reverse.take 3 == [34, 34, 34] ∨ l.reverse.take 3 == [39, 39, 39] then
    dropTrailWs (l.take (l.length - 3))
  else l

/-- Model of `.trim()`. -/
def trimL (l : List Nat) : List Nat :=
  ((l.dropWhile (fun c => isJsSpace c)).reverse.dropWhile
    (fun c => isJsSpace c)).reverse

/-- The tag-content normalization of the source (lines 133-137 and
224-228): strip closing-delimiter remnants, trim, lower-case. -/
def cleanTagContent (raw : List Nat) : List Nat :=
  lowerL (trimL (stripPyClose (stripJsClose raw)))

/-- The `type` field of a `DiagnosticMatch` (src/analyzer.ts line 6). -/
inductive MatchType where
  | warning | rejected
deriving DecidableEq, Repr

/-- Model of the `DiagnosticMatch` interface.  The optional `isFileLevel`
field is modelled as a `Bool` whose default `false` stands for `undefined`. -/
structure DiagnosticMatch where
  tagStartOffset : Nat
  tagEndOffset : Nat
  codeStartOffset : Nat
  codeEndOffset : Nat
  type : MatchType
  isFileLevel : Bool := false
deriving DecidableEq, Repr

/-- Model of `LanguageType`. -/
inductive LanguageType where
  | javascript | python | hash
deriving DecidableEq, Repr

/-- Model of `AnalyzerOptions` together with the defaults that
`findAiGenDiagnostics` destructures for absent fields of its
`Partial<AnalyzerOptions>` argument. -/
structure AnalyzerOptions where
  detectInline : Bool := true
  detectFileLevel : Bool := true
  tag : List Nat := codes "@ai-gen"
  allowedStates : List (List Nat) := [codes "ok"]
  rejectedStates : List (List Nat) := [codes "rejected", codes "reject"]
  language : LanguageType := .javascript
deriving Repr

/-- Model of the `FileLevelResult` interface. -/
structure FileLevelResult where
  flMatch : DiagnosticMatch
  commentEndOffset : Nat
deriving DecidableEq, Repr

/-- The `isInlineComment` test (lines 156-158 and 211): whether the comment
text starts with the line-comment marker of the family. -/
def isInlineCommentOf (usesHashComments : Bool) (fullComment : List Nat) :
    Bool :=
  if usesHashComments then fullComment.take 1 == [35]
  else fullComment.take 2 == codes "//"

/-- The skip test of line 109: whether a comment match starting at `ms`
lies before the file-level skip boundary (`none` models
`fileLevelCommentEndOffset === -1`). -/
def beforeBound (flBound : Option Nat) (ms : Nat) : Bool :=
  match flBound with
  | some b => decide (ms < b)
  | none => false

/-- The initial `matches` array of `findAiGenDiagnostics`: the file-level
match, when the file-level detector produced one (lines 92-99). -/
def flInit (flRes : Option FileLevelResult) : List DiagnosticMatch :=
  match flRes with
  | some r => [r.flMatch]
  | none => []

/-- The shared state-classification logic of `findAiGenDiagnostics`
(lines 139-143) and `checkFileLevelComment` (lines 231-235): `none` means
the match is dropped (allowed state), otherwise the match type. -/
def stateDecision (content : List Nat) (allowedL rejectedL : List (List Nat)) :
    Option MatchType :=
  if allowedL.contains content then none
  else if rejectedL.contains content then some .rejected
  else some .warning

/-- Model of `fileLevelPattern.exec(text)` for the anchored patterns
`^(\s*)(\/\/.*)` (JS) and `^(\s*)(#.*)` (Python/hash, `hashMark = true`):
the text must begin with whitespace directly followed by the comment
opener; returns the comment start (= length of group 1) and end. -/
def fileLevelExec (hashMark : Bool) (t : List Nat) : Option (Nat × Nat) :=
  if hashMark then
    if charAt t (wsEnd t 0) = 35 then
      some (wsEnd t 0, dotEnd t (wsEnd t 0 + 1))
    else none
  else
    if startsWithAt t (wsEnd t 0) (codes "//") then
      some (wsEnd t 0, dotEnd t (wsEnd t 0 + 2))
    else none

/-- Model of `checkFileLevelComment` (src/analyzer.ts lines 193-253). -/
def checkFileLevelComment (t : List Nat) (tagL : List Nat)
    (allowedL rejectedL : List (List Nat)) (detectInline : Bool)
    (hashMark usesHashComments : Bool) : Option FileLevelResult :=
  match fileLevelExec hashMark t with
  | none => none
  | some (w, ce) =>
    if isInlineCommentOf usesHashComments (sliceL t w ce) ∧
        ¬ detectInline then none
    else
      match tagExec tagL (sliceL t w ce) with
      | none => none
      | some (ti, tl, raw) =>
        match stateDecision (cleanTagContent raw) allowedL rejectedL with
        | none => none
        | some ty =>
          some { flMatch :=
                  { tagStartOffset := w + ti
                    tagEndOffset := w + ti + tl
                    codeStartOffset := ce
                    codeEndOffset := t.length
                    type := ty
                    isFileLevel := true }
                 commentEndOffset := ce }

/-- The `codeEndOffset` computation of the main scan (lines 155-167): the
inline-comment override (next line only), otherwise the family-specific
block resolver. -/
def codeEndFor (t : List Nat) (isPyOrHash isPython : Bool)
    (fullComment : List Nat) (cs : Nat) : Nat :=
  if isInlineCommentOf isPyOrHash fullComment then
    (indexOfC t 10 cs).getD t.length
  else if isPython then findPythonBlockEndOffset t cs
  else findBlockEndOffset t cs

/-- The main `while ((match = mainPattern.exec(text)) !== null)` loop of
`findAiGenDiagnostics` (lines 107-178).  `flBound` is
`fileLevelCommentEndOffset` (`none` for `-1`); `cancelled` models
`token.isCancellationRequested`; `pos` is the pattern object's `lastIndex`;
`acc` is the `matches` array accumulated so far (including any file-level
match).  The time-slicing `await` (lines 118-121) does not affect the
result and is not modelled. -/
def scanLoop (t : List Nat) (pid : PatternId) (tagL : List Nat)
    (allowedL rejectedL : List (List Nat)) (isPyOrHash isPython : Bool)
    (cancelled : Bool) (flBound : Option Nat) :
    Nat → Nat → List DiagnosticMatch → List DiagnosticMatch
  | 0, _, acc => acc
  | f+1, pos, acc =>
    match execPattern pid t pos with
    | none => acc
    | some (ms, me) =>
      if beforeBound flBound ms then
        scanLoop t pid tagL allowedL rejectedL isPyOrHash isPython cancelled
          flBound f me acc
      else if cancelled then []
      else
        match tagExec tagL (sliceL t ms me) with
        | none =>
          scanLoop t pid tagL allowedL rejectedL isPyOrHash isPython cancelled
            flBound f me acc
        | some (ti, tl, raw) =>
          match stateDecision (cleanTagContent raw) allowedL rejectedL with
          | none =>
            scanLoop t pid tagL allowedL rejectedL isPyOrHash isPython
              cancelled flBound f me acc
          | some ty =>
            match firstNonWsFrom t me with
            | none =>
              scanLoop t pid tagL allowedL rejectedL isPyOrHash isPython
                cancelled flBound f me acc
            | some cs =>
              scanLoop t pid tagL allowedL rejectedL isPyOrHash isPython
                cancelled flBound f me
                (acc ++ [{ tagStartOffset := ms + ti
                           tagEndOffset := ms + ti + tl
                           codeStartOffset := cs
                           codeEndOffset :=
                             codeEndFor t isPyOrHash isPython
                               (sliceL t ms me) cs
                           type := ty }])

/-- The doc-block pattern selected for a language family (lines 68-81);
for the hash family the source reuses the all-comments pattern. -/
def docPatternId : LanguageType → PatternId
  | .javascript => .jsDoc
  | .python => .pyDoc
  | .hash => .hashAll

/-- The all-comments pattern selected for a language family. -/
def allPatternId : LanguageType → PatternId
  | .javascript => .jsAll
  | .python => .pyAll
  | .hash => .hashAll

/-- Whether the file-level pattern of a language family uses the `#`
comment marker. -/
def flHashMark : LanguageType → Bool
  | .javascript => false
  | .python => true
  | .hash => true

/-- Model of `findAiGenDiagnostics(text, options, token)` (src/analyzer.ts
lines 51-181).  `cancelled` models a token whose
`isCancellationRequested` field is constant during the scan. -/
def findAiGenDiagnostics (t : List Nat) (options : AnalyzerOptions)
    (cancelled : Bool) : List DiagnosticMatch :=
  let isPython := options.language = .python
  let isHash := options.language = .hash
  let allowedL := options.allowedStates.map lowerL
  let rejectedL := options.rejectedStates.map lowerL
  let flRes :=
    if options.detectFileLevel then
      checkFileLevelComment t options.tag allowedL rejectedL
        options.detectInline (flHashMark options.language)
        (isPython ∨ isHash)
    else none
  let acc0 := flInit flRes
  let flBound := flRes.map (·.commentEndOffset)
  let mainPid :=
    if options.detectInline then allPatternId options.language
    else docPatternId options.language
  scanLoop t mainPid options.tag allowedL rejectedL (isPython ∨ isHash)
    isPython cancelled flBound (t.length + 2) 0 acc0

/-- Characterization of a match emitted by the main scan loop (as opposed
to the file-level match pushed before the loop): the data the loop body
computed for it. -/
def emittedMatch (t : List Nat) (pid : PatternId) (tagL : List Nat)
    (allowedL rejectedL : List (List Nat)) (isPyOrHash isPython : Bool)
    (m : DiagnosticMatch) : Prop :=
  ∃ ms me ti tl raw ty cs,
    matchCommentAt pid t ms = some me ∧
    tagExec tagL (sliceL t ms me) = some (ti, tl, raw) ∧
    stateDecision (cleanTagContent raw) allowedL rejectedL = some ty ∧
    firstNonWsFrom t me = some cs ∧
    m = { tagStartOffset := ms + ti
          tagEndOffset := ms + ti + tl
          codeStartOffset := cs
          codeEndOffset := codeEndFor t isPyOrHash isPython (sliceL t ms me) cs
          type := ty }

/-- The mutable `lastIndex` properties of the module-level global regex
objects of src/analyzer.ts (the file-level patterns and the per-call
`tagRegex` are not global; their `exec` ignores and leaves `lastIndex`). -/
structure RegexState where
  jsDoc : Nat := 0
  jsAll : Nat := 0
  pyDoc : Nat := 0
  pyAll : Nat := 0
  hashAll : Nat := 0
  nonWs : Nat := 0
deriving DecidableEq, Repr

/-- Read the `lastIndex` of a comment pattern. -/
def readLI (s : RegexState) : PatternId → Nat
  | .jsDoc => s.jsDoc
  | .jsAll => s.jsAll
  | .pyDoc => s.pyDoc
  | .pyAll => s.pyAll
  | .hashAll => s.hashAll

/-- Write the `lastIndex` of a comment pattern. -/
def writeLI (s : RegexState) (pid : PatternId) (v : Nat) : RegexState :=
  match pid with
  | .jsDoc => { s with jsDoc := v }
  | .jsAll => { s with jsAll := v }
  | .pyDoc => { s with pyDoc := v }
  | .pyAll => { s with pyAll := v }
  | .hashAll => { s with hashAll := v }

/-- Model of `exec` on a global comment pattern: search from the stored
`lastIndex`; on success set `lastIndex` to the match end, on failure reset
it to 0 (JS semantics). -/
def execPatternG (pid : PatternId) (t : List Nat) (s : RegexState) :
    Option (Nat × Nat) × RegexState :=
  match execPattern pid t (readLI s pid) with
  | none => (none, writeLI s pid 0)
  | some (ms, me) => (some (ms, me), writeLI s pid me)

/-- Model of `NON_WHITESPACE_PATTERN.exec(text)` with its `lastIndex`
state (a `/\S/g` match has length 1, so success sets `lastIndex` to the
match index plus one; failure resets it to 0). -/
def firstNonWsG (t : List Nat) (s : RegexState) : Option Nat × RegexState :=
  match firstNonWsFrom t s.nonWs with
  | none => (none, { s with nonWs := 0 })
  | some r => (some r, { s with nonWs := r + 1 })

/-- The main scan loop threading the shared regex-object state: the loop
position lives in the main pattern's `lastIndex`, and line 148 of the
source sets `NON_WHITESPACE_PATTERN.lastIndex = commentEndOffset` before
each use. -/
def scanLoopS (t : List Nat) (pid : PatternId) (tagL : List Nat)
    (allowedL rejectedL : List (List Nat)) (isPyOrHash isPython : Bool)
    (cancelled : Bool) (flBound : Option Nat) :
    Nat → RegexState → List DiagnosticMatch →
    List DiagnosticMatch × RegexState
  | 0, s, acc => (acc, s)
  | f+1, s, acc =>
    match execPatternG pid t s with
    | (none, s1) => (acc, s1)
    | (some (ms, me), s1) =>
      if beforeBound flBound ms then
        scanLoopS t pid tagL allowedL rejectedL isPyOrHash isPython cancelled
          flBound f s1 acc
      else if cancelled then ([], s1)
      else
        match tagExec tagL (sliceL t ms me) with
        | none =>
          scanLoopS t pid tagL allowedL rejectedL isPyOrHash isPython
            cancelled flBound f s1 acc
        | some (ti, tl, raw) =>
          match stateDecision (cleanTagContent raw) allowedL rejectedL with
          | none =>
            scanLoopS t pid tagL allowedL rejectedL isPyOrHash isPython
              cancelled flBound f s1 acc
          | some ty =>
            match firstNonWsG t { s1 with nonWs := me } with
            | (none, s2) =>
              scanLoopS t pid tagL allowedL rejectedL isPyOrHash isPython
                cancelled flBound f s2 acc
            | (some cs, s2) =>
              scanLoopS t pid tagL allowedL rejectedL isPyOrHash isPython
                cancelled flBound f s2
                (acc ++ [{ tagStartOffset := ms + ti
                           tagEndOffset := ms + ti + tl
                           codeStartOffset := cs
                           codeEndOffset :=
                             codeEndFor t isPyOrHash isPython
                               (sliceL t ms me) cs
                           type := ty }])

/-- Model of `findAiGenDiagnostics` threading the module-level regex state
it starts from: returns result plus the final state.  Line 102 of the
source (`mainPattern.lastIndex = 0`) is the `writeLI ... 0`. -/
def findAiGenDiagnosticsS (t : List Nat) (options : AnalyzerOptions)
    (cancelled : Bool) (s0 : RegexState) :
    List DiagnosticMatch × RegexState :=
  let isPython := options.language = .python
  let isHash := options.language = .hash
  let allowedL := options.allowedStates.map lowerL
  let rejectedL := options.rejectedStates.map lowerL
  let flRes :=
    if options.detectFileLevel then
      checkFileLevelComment t options.tag allowedL rejectedL
        options.detectInline (flHashMark options.language)
        (isPython ∨ isHash)
    else none
  let acc0 := flInit flRes
  let flBound := flRes.map (·.commentEndOffset)
  let mainPid :=
    if options.detectInline then allPatternId options.language
    else docPatternId options.language
  scanLoopS t mainPid options.tag allowedL rejectedL (isPython ∨ isHash)
    isPython cancelled flBound (t.length + 2) (writeLI s0 mainPid 0) acc0

/-! Concrete inputs used by counterexamples, failing inputs and witnesses.
Braces inside the string literals are written with `\x7b` / `\x7d` and
quotes with `\x22`; each definition's comment shows the plain text. -/

/-- The text `f() { a = /}/; }` — a block whose body holds a regex literal
containing a closing brace (and no quote, backtick, or comment opener). -/
def exC2 : List Nat := codes "f() \x7b a = /\x7d/; \x7d"

/-- Python text `def foo():\n    x = 1\n# c\n    y = 2\nz\n`: a sibling
comment (`# c`, indent 0) between two indented body lines. -/
def exC3 : List Nat := codes "def foo():\n    x = 1\n# c\n    y = 2\nz\n"

/-- Python text `def f():\n    a = 1\n#note\nb = 2\n`: a sibling comment
whose `#` is followed directly by a letter. -/
def exC3w : List Nat := codes "def f():\n    a = 1\n#note\nb = 2\n"

/-- The text `// @ai-gen` — the whole file is a single leading line
comment carrying the tag. -/
def exC4 : List Nat := codes "// @ai-gen"

/-- The text `// @ai-gen` (same shape as `exC4`, used for claim C5). -/
def exC5 : List Nat := codes "// @ai-gen"

/-- The text `/** @ai-gen */\nconst y = 2;\n`. -/
def exC5w : List Nat := codes "/** @ai-gen */\nconst y = 2;\n"

/-- The failing input of the repository's own `includeAllowed` test:
`\n/** @ai-gen ok */\nfunction test() {}\n`. -/
def exC6 : List Nat := codes "\n/** @ai-gen ok */\nfunction test() \x7b\x7d\n"

/-- The text `x\n# @ai-gen\ny = 1\n` — a tag inside a `#` line comment
(not file-leading), for the hash family. -/
def exC7 : List Nat := codes "x\n# @ai-gen\ny = 1\n"

/-- Options: hash family with inline detection disabled. -/
def exC7opts : AnalyzerOptions := { language := .hash, detectInline := false }

/-- The text `/** @ai-gen */\nx;`. -/
def exC7w : List Nat := codes "/** @ai-gen */\nx;"

/-- Options: JavaScript family with inline detection disabled. -/
def exC7wOpts : AnalyzerOptions := { detectInline := false }

/-- The text `/** @ai-gen */\nconst x = 1;\n`. -/
def exC1w : List Nat := codes "/** @ai-gen */\nconst x = 1;\n"

/-- The text `abcde`, for the skipper-progress witness. -/
def exC9w : List Nat := codes "abcde"

/-- The text `/** @ai-gen ok later */\nconst x = 1;\n` — an allowed word
followed by further words. -/
def exC10 : List Nat := codes "/** @ai-gen ok later */\nconst x = 1;\n"

/-! Supporting lemmas. -/

theorem charAt_of_len_le (t : List Nat) (i : Nat) (h : t.length ≤ i) :
    charAt t i = 0 := by
  unfold charAt
  rw [List.getD_eq_default]
  omega

theorem lt_len_of_charAt_ne (t : List Nat) (i : Nat) (h : charAt t i ≠ 0) :
    i < t.length := by
  by_contra hc
  exact h (charAt_of_len_le t i (by omega))

theorem isLineTerm_isJsSpace (c : Nat) (h : isLineTerm c = true) :
    isJsSpace c = true := by
  simp only [isLineTerm, isJsSpace, Bool.or_eq_true, decide_eq_true_eq,
    Bool.and_eq_true] at *
  omega

theorem sliceL_length (t : List Nat) (a b : Nat) (h : b ≤ t.length) :
    (sliceL t a b).length = b - a := by
  simp only [sliceL, List.length_take, List.length_drop]
  omega

theorem startsWithAt_le (t p : List Nat) (s : Nat) (hp : p ≠ [])
    (h : startsWithAt t s p = true) : s + p.length ≤ t.length := by
  simp only [startsWithAt, beq_iff_eq] at h
  have hl := congrArg List.length h
  simp only [sliceL, List.length_take, List.length_drop] at hl
  have hp0 : 0 < p.length := List.length_pos.mpr hp
  omega

theorem wsEndGo_bounds (t : List Nat) :
    ∀ f i, i ≤ wsEndGo t f i ∧ wsEndGo t f i ≤ max i t.length := by
  intro f
  induction f with
  | zero => intro i; simp [wsEndGo]
  | succ f ih =>
    intro i
    simp only [wsEndGo]
    split
    · split
      · have h := ih (i+1); omega
      · omega
    · omega

theorem dotEndGo_bounds (t : List Nat) :
    ∀ f i, i ≤ dotEndGo t f i ∧ dotEndGo t f i ≤ max i t.length := by
  intro f
  induction f with
  | zero => intro i; simp [dotEndGo]
  | succ f ih =>
    intro i
    simp only [dotEndGo]
    split
    · split
      · omega
      · have h := ih (i+1); omega
    · omega

theorem wsEnd_bounds (t : List Nat) (i : Nat) :
    i ≤ wsEnd t i ∧ wsEnd t i ≤ max i t.length :=
  wsEndGo_bounds t (t.length + 2) i

theorem dotEnd_bounds (t : List Nat) (i : Nat) :
    i ≤ dotEnd t i ∧ dotEnd t i ≤ max i t.length :=
  dotEndGo_bounds t (t.length + 2) i

theorem wsEnd_le (t : List Nat) (i : Nat) (h : i ≤ t.length) :
    wsEnd t i ≤ t.length :=
  le_trans (wsEnd_bounds t i).2 (max_le h (Nat.le_refl _))

theorem dotEnd_le (t : List Nat) (i : Nat) (h : i ≤ t.length) :
    dotEnd t i ≤ t.length :=
  le_trans (dotEnd_bounds t i).2 (max_le h (Nat.le_refl _))

theorem wsEnd_stop (t : List Nat) (i : Nat)
    (h : isJsSpace (charAt t i) = false) : wsEnd t i = i := by
  unfold wsEnd
  obtain ⟨f, hf⟩ : ∃ f, t.length + 2 = f + 1 := ⟨t.length + 1, by omega⟩
  rw [hf]
  simp only [wsEndGo, h]
  split <;> simp

theorem dotEnd_pos (t : List Nat) (i : Nat) (hlen : i < t.length)
    (h : isLineTerm (charAt t i) = false) : i + 1 ≤ dotEnd t i := by
  have hf : 0 < t.length + 2 := by omega
  obtain ⟨f, hf⟩ : ∃ f, t.length + 2 = f + 1 := ⟨t.length + 1, by omega⟩
  unfold dotEnd
  rw [hf]
  simp only [dotEndGo, hlen, if_pos, h]
  simp only [if_false, Bool.false_eq_true]
  have := dotEndGo_bounds t f (i+1)
  omega

theorem findSub2Go_some (t : List Nat) (a b : Nat) :
    ∀ f i k, findSub2Go t a b f i = some k →
      i ≤ k ∧ k + 1 < t.length := by
  intro f
  induction f with
  | zero => intro i k h; simp [findSub2Go] at h
  | succ f ih =>
    intro i k h
    simp only [findSub2Go] at h
    split at h
    · split at h
      · rename_i hcond
        cases h
        omega
      · have := ih (i+1) k h
        omega
    · cases h

theorem findSub3Go_some (t : List Nat) (a : Nat) :
    ∀ f i k, findSub3Go t a f i = some k →
      i ≤ k ∧ k + 2 < t.length := by
  intro f
  induction f with
  | zero => intro i k h; simp [findSub3Go] at h
  | succ f ih =>
    intro i k h
    simp only [findSub3Go] at h
    split at h
    · split at h
      · rename_i hcond
        cases h
        omega
      · have := ih (i+1) k h
        omega
    · cases h

theorem indexOfCGo_some (t : List Nat) (c : Nat) :
    ∀ f i k, indexOfCGo t c f i = some k →
      i ≤ k ∧ k < t.length ∧ charAt t k = c := by
  intro f
  induction f with
  | zero => intro i k h; simp [indexOfCGo] at h
  | succ f ih =>
    intro i k h
    simp only [indexOfCGo] at h
    split at h
    · split at h
      · rename_i hlt hc
        cases h
        exact ⟨Nat.le_refl _, hlt, hc⟩
      · have := ih (i+1) k h
        exact ⟨by omega, this.2⟩
    · cases h

theorem indexOfC_some (t : List Nat) (c i k : Nat)
    (h : indexOfC t c i = some k) :
    i ≤ k ∧ k < t.length ∧ charAt t k = c :=
  indexOfCGo_some t c (t.length + 2) i k h

theorem firstNonWsGo_some (t : List Nat) :
    ∀ f i k, firstNonWsGo t f i = some k →
      i ≤ k ∧ k < t.length ∧ isJsSpace (charAt t k) = false := by
  intro f
  induction f with
  | zero => intro i k h; simp [firstNonWsGo] at h
  | succ f ih =>
    intro i k h
    simp only [firstNonWsGo] at h
    split at h
    · split at h
      · have := ih (i+1) k h
        exact ⟨by omega, this.2⟩
      · rename_i hlt hw
        cases h
        exact ⟨Nat.le_refl _, hlt, by simpa using hw⟩
    · cases h

theorem firstNonWsFrom_some (t : List Nat) (i k : Nat)
    (h : firstNonWsFrom t i = some k) :
    i ≤ k ∧ k < t.length ∧ isJsSpace (charAt t k) = false :=
  firstNonWsGo_some t (t.length + 2) i k h

theorem wsEnd_pos (t : List Nat) (i : Nat) (hlen : i < t.length)
    (h : isJsSpace (charAt t i) = true) : i + 1 ≤ wsEnd t i := by
  unfold wsEnd
  obtain ⟨f, hf⟩ : ∃ f, t.length + 2 = f + 1 := ⟨t.length + 1, by omega⟩
  rw [hf]
  simp only [wsEndGo, hlen, if_pos, h, if_true]
  have := wsEndGo_bounds t f (i+1)
  omega

theorem jsDocAt_some (t : List Nat) (s e : Nat) (h : jsDocAt t s = some e) :
    s + 5 ≤ e ∧ e ≤ t.length := by
  simp only [jsDocAt] at h
  split at h
  · rename_i hsw
    match hk : findSub2 t 42 47 (s+3) with
    | none => rw [hk] at h; cases h
    | some k =>
      rw [hk] at h
      have hb := findSub2Go_some t 42 47 (t.length + 2) (s+3) k hk
      simp only [Option.map_some'] at h
      cases h
      omega
  · cases h

theorem jsLineAt_some (t : List Nat) (s e : Nat) (h : jsLineAt t s = some e) :
    s + 2 ≤ e ∧ e ≤ t.length := by
  simp only [jsLineAt] at h
  split at h
  · rename_i hsw
    cases h
    have hle := startsWithAt_le t (codes "//") s (by decide) hsw
    have hb := dotEnd_bounds t (s+2)
    simp [codes] at hle
    omega
  · cases h

theorem pyTripleAt_some (t : List Nat) (s q e : Nat)
    (h : pyTripleAt t s q = some e) : s + 6 ≤ e ∧ e ≤ t.length := by
  simp only [pyTripleAt] at h
  split at h
  · match hk : findSub3 t q (s+3) with
    | none => rw [hk] at h; cases h
    | some k =>
      rw [hk] at h
      have hb := findSub3Go_some t q (t.length + 2) (s+3) k hk
      simp only [Option.map_some'] at h
      cases h
      omega
  · cases h

theorem hashLineAt_some (t : List Nat) (s e : Nat)
    (h : hashLineAt t s = some e) : s + 1 ≤ e ∧ e ≤ t.length := by
  simp only [hashLineAt] at h
  split at h
  · rename_i hc
    cases h
    have hb := dotEnd_bounds t (s+1)
    omega
  · cases h

theorem matchCommentAt_bounds (pid : PatternId) (t : List Nat) (s e : Nat)
    (h : matchCommentAt pid t s = some e) : s < e ∧ e ≤ t.length := by
  cases pid <;> simp only [matchCommentAt] at h
  case jsDoc =>
    have := jsDocAt_some t s e h
    omega
  case jsAll =>
    match hd : jsDocAt t s with
    | some ed =>
      rw [hd] at h
      cases h
      have := jsDocAt_some t s e hd
      omega
    | none =>
      rw [hd] at h
      have := jsLineAt_some t s e h
      omega
  case pyDoc =>
    match hd : pyTripleAt t s 34 with
    | some ed =>
      rw [hd] at h
      cases h
      have := pyTripleAt_some t s 34 e hd
      omega
    | none =>
      rw [hd] at h
      have := pyTripleAt_some t s 39 e h
      omega
  case pyAll =>
    match hd : pyTripleAt t s 34 with
    | some ed =>
      rw [hd] at h
      cases h
      have := pyTripleAt_some t s 34 e hd
      omega
    | none =>
      rw [hd] at h
      match hd2 : pyTripleAt t s 39 with
      | some ed =>
        rw [hd2] at h
        cases h
        have := pyTripleAt_some t s 39 e hd2
        omega
      | none =>
        rw [hd2] at h
        have := hashLineAt_some t s e h
        omega
  case hashAll =>
    have := hashLineAt_some t s e h
    omega

theorem execGo_some (pid : PatternId) (t : List Nat) :
    ∀ f p ms me, execGo pid t f p = some (ms, me) →
      p ≤ ms ∧ matchCommentAt pid t ms = some me := by
  intro f
  induction f with
  | zero => intro p ms me h; simp [execGo] at h
  | succ f ih =>
    intro p ms me h
    simp only [execGo] at h
    split at h
    · match hm : matchCommentAt pid t p with
      | some e =>
        rw [hm] at h
        cases h
        exact ⟨Nat.le_refl _, hm⟩
      | none =>
        rw [hm] at h
        have := ih (p+1) ms me h
        exact ⟨by omega, this.2⟩
    · cases h

theorem execPattern_some (pid : PatternId) (t : List Nat) (p ms me : Nat)
    (h : execPattern pid t p = some (ms, me)) :
    p ≤ ms ∧ matchCommentAt pid t ms = some me :=
  execGo_some pid t (t.length + 2) p ms me h

theorem lowerL_length (l : List Nat) : (lowerL l).length = l.length := by
  simp [lowerL]

theorem tagHitAt_le (tagL comment : List Nat) (j : Nat) (hp : tagL ≠ [])
    (h : tagHitAt tagL comment j = true) :
    j + tagL.length ≤ comment.length := by
  simp only [tagHitAt, beq_iff_eq] at h
  have hl := congrArg List.length h
  simp only [lowerL_length, sliceL, List.length_take, List.length_drop] at hl
  have hp0 : 0 < tagL.length := List.length_pos.mpr hp
  omega

theorem findTagIdxGo_some (tagL comment : List Nat) :
    ∀ f j0 j, findTagIdxGo tagL comment f j0 = some j →
      j ≤ comment.length ∧ tagHitAt tagL comment j = true := by
  intro f
  induction f with
  | zero => intro j0 j h; simp [findTagIdxGo] at h
  | succ f ih =>
    intro j0 j h
    simp only [findTagIdxGo] at h
    split at h
    · split at h
      · rename_i hle hhit
        cases h
        exact ⟨hle, hhit⟩
      · exact ih (j0+1) j h
    · cases h

theorem findTagIdx_nil (comment : List Nat) :
    findTagIdx [] comment = some 0 := by
  show findTagIdxGo [] comment (comment.length + 1 + 1) 0 = some 0
  simp [findTagIdxGo, tagHitAt, sliceL]

theorem tagExec_some (tagL comment : List Nat) (ti tl : Nat)
    (raw : List Nat) (hc : comment ≠ [])
    (h : tagExec tagL comment = some (ti, tl, raw)) :
    ti + tl ≤ comment.length ∧ 1 ≤ tl := by
  simp only [tagExec] at h
  match hj : findTagIdx tagL comment with
  | none => rw [hj] at h; cases h
  | some j =>
    rw [hj] at h
    simp only [Option.some.injEq, Prod.mk.injEq] at h
    obtain ⟨h1, h2, h3⟩ := h
    subst h1
    subst h2
    subst h3
    have hjb := findTagIdxGo_some tagL comment (comment.length + 2) 0 j hj
    by_cases htag : tagL = []
    · subst htag
      rw [findTagIdx_nil] at hj
      cases hj
      have hlen0 : 0 < comment.length := List.length_pos.mpr hc
      have hq1 := (wsEnd_bounds comment 0).1
      have hq2 : wsEnd comment 0 ≤ comment.length :=
        wsEnd_le comment 0 (by omega)
      have he1 := (dotEnd_bounds comment (wsEnd comment 0)).1
      have he2 : dotEnd comment (wsEnd comment 0) ≤ comment.length :=
        dotEnd_le comment (wsEnd comment 0) hq2
      simp only [List.length_nil, Nat.add_zero]
      by_cases hws : isJsSpace (charAt comment 0) = true
      · have := wsEnd_pos comment 0 hlen0 hws
        omega
      · have hq0 : wsEnd comment 0 = 0 :=
          wsEnd_stop comment 0 (by simpa using hws)
        rw [hq0] at he1 he2 ⊢
        have hnl : isLineTerm (charAt comment 0) = false := by
          by_contra hcon
          simp only [Bool.not_eq_false] at hcon
          exact hws (isLineTerm_isJsSpace _ hcon)
        have := dotEnd_pos comment 0 hlen0 hnl
        omega
    · have hle := tagHitAt_le tagL comment j htag hjb.2
      have hp0 : 0 < tagL.length := List.length_pos.mpr htag
      have hq1 := (wsEnd_bounds comment (j + tagL.length)).1
      have hq2 : wsEnd comment (j + tagL.length) ≤ comment.length :=
        wsEnd_le comment (j + tagL.length) hle
      have he1 := (dotEnd_bounds comment (wsEnd comment (j + tagL.length))).1
      have he2 : dotEnd comment (wsEnd comment (j + tagL.length)) ≤
          comment.length :=
        dotEnd_le comment (wsEnd comment (j + tagL.length)) hq2
      omega

theorem skipStringGo_bounds (t : List Nat) (q : Nat) :
    ∀ f i, skipStringGo t t.length q f i ≤ t.length ∧
      (i + 1 ≤ skipStringGo t t.length q f i ∨
        skipStringGo t t.length q f i = t.length) := by
  intro f
  induction f with
  | zero => intro i; simp [skipStringGo]
  | succ f ih =>
    intro i
    simp only [skipStringGo]
    split
    · split
      · have := ih (i+2); omega
      · split
        · omega
        · have := ih (i+1); omega
    · omega

theorem skipString_bounds (t : List Nat) (start q : Nat)
    (h : start < t.length) :
    start < skipString t start q ∧ skipString t start q ≤ t.length := by
  have := skipStringGo_bounds t q (t.length + 2) (start + 1)
  unfold skipString
  omega

theorem charClassGo_ge (t : List Nat) (len : Nat) :
    ∀ f i, i ≤ charClassGo t len f i := by
  intro f
  induction f with
  | zero => intro i; simp [charClassGo]
  | succ f ih =>
    intro i
    simp only [charClassGo]
    split
    · split
      · have := ih (i+2); omega
      · split
        · omega
        · have := ih (i+1); omega
    · omega

theorem flagsGo_bounds (t : List Nat) (len : Nat) :
    ∀ f i, i ≤ flagsGo t len f i ∧
      (flagsGo t len f i ≤ len ∨ flagsGo t len f i = i) := by
  intro f
  induction f with
  | zero => intro i; simp [flagsGo]
  | succ f ih =>
    intro i
    simp only [flagsGo]
    split
    · split
      · have := ih (i+1); omega
      · omega
    · omega

theorem skipRegexGo_bounds (t : List Nat) (start : Nat)
    (hs : start < t.length) :
    ∀ f i, start + 1 ≤ i →
      start < skipRegexGo t t.length start f i ∧
        skipRegexGo t t.length start f i ≤ t.length := by
  intro f
  induction f with
  | zero => intro i hi; simp [skipRegexGo]; omega
  | succ f ih =>
    intro i hi
    simp only [skipRegexGo]
    split
    · split
      · exact ih (i+2) (by omega)
      · split
        · have hcc := charClassGo_ge t t.length (t.length + 2) (i+1)
          exact ih (charClassGo t t.length (t.length + 2) (i+1)) (by omega)
        · split
          · have := flagsGo_bounds t t.length (t.length + 2) (i+1)
            omega
          · split
            · omega
            · exact ih (i+1) (by omega)
    · omega

theorem skipRegexLiteral_bounds (t : List Nat) (start : Nat)
    (h : start < t.length) :
    start < skipRegexLiteral t start t.length ∧
      skipRegexLiteral t start t.length ≤ t.length :=
  skipRegexGo_bounds t start h (t.length + 2) (start + 1) (Nat.le_refl _)

theorem tmplGo_bounds (t : List Nat) :
    ∀ f, (∀ i d, i ≤ tmplGo t t.length f true i d) ∧
      (∀ i d, tmplGo t t.length f false i d ≤ t.length ∧
        (i + 1 ≤ tmplGo t t.length f false i d ∨
          tmplGo t t.length f false i d = t.length)) := by
  intro f
  induction f with
  | zero => constructor <;> intro i d <;> simp [tmplGo]
  | succ f ih =>
    obtain ⟨ihT, ihF⟩ := ih
    constructor
    · intro i d
      simp only [tmplGo]
      split
      · rename_i hin
        split
        · have := ihT (i+1) (d+1); omega
        · split
          · have := ihT (i+1) (d-1); omega
          · split
            · have := ihT (i+2) d; omega
            · split
              · have hss := skipString_bounds t i (charAt t i) (by omega)
                have := ihT (skipString t i (charAt t i)) d
                omega
              · split
                · have hf := ihF (i+1) 0
                  have := ihT (tmplGo t t.length f false (i+1) 0) d
                  omega
                · have := ihT (i+1) d; omega
      · omega
    · intro i d
      simp only [tmplGo]
      split
      · rename_i hin
        split
        · have := ihF (i+2) 0; omega
        · split
          · omega
          · split
            · have hj := ihT (i+2) 1
              have := ihF (tmplGo t t.length f true (i+2) 1) 0
              omega
            · have := ihF (i+1) 0; omega
      · omega

theorem skipTemplateLiteral_bounds (t : List Nat) (start : Nat)
    (h : start < t.length) :
    start < skipTemplateLiteral t start t.length ∧
      skipTemplateLiteral t start t.length ≤ t.length := by
  have := (tmplGo_bounds t (t.length + 2)).2 (start + 1) 0
  unfold skipTemplateLiteral
  omega

theorem fastBraceGo_bounds (t : List Nat) (len : Nat) :
    ∀ f j d, fastBraceGo t len f j d ≤ len ∧
      (j + 1 ≤ fastBraceGo t len f j d ∨ fastBraceGo t len f j d = len) := by
  intro f
  induction f with
  | zero => intro j d; simp [fastBraceGo]
  | succ f ih =>
    intro j d
    simp only [fastBraceGo]
    split
    · split
      · have := ih (j+1) (d+1); omega
      · split
        · split
          · omega
          · have := ih (j+1) (d-1); omega
        · have := ih (j+1) d; omega
    · omega

theorem carefulGo_bounds (t : List Nat) (s0 : Nat) (hs : s0 < t.length) :
    ∀ f i d ls, s0 < i →
      s0 < carefulGo t t.length f i d ls ∧
        carefulGo t t.length f i d ls ≤ t.length := by
  intro f
  induction f with
  | zero => intro i d ls hi; rw [carefulGo]; omega
  | succ f ih =>
    intro i d ls hi
    suffices h : ∀ r, carefulGo t t.length (f+1) i d ls = r →
        s0 < r ∧ r ≤ t.length from h _ rfl
    intro r hr
    rw [carefulGo] at hr
    by_cases h1 : i < t.length
    swap
    · rw [if_neg h1] at hr; omega
    rw [if_pos h1] at hr
    by_cases h2 : charAt t i = 32 ∨ charAt t i = 9 ∨ charAt t i = 10 ∨
        charAt t i = 13
    · rw [if_pos h2] at hr
      have := ih (i+1) d ls (by omega); omega
    rw [if_neg h2] at hr
    by_cases h3 : charAt t i = 47 ∧ charAt t (i+1) = 47
    · rw [if_pos h3] at hr
      rcases hio : indexOfC t 10 i with _ | k
      · rw [hio] at hr
        have hr2 : t.length = r := hr
        omega
      · rw [hio] at hr
        have hr2 : carefulGo t t.length f (k+1) d ls = r := hr
        have hb := indexOfC_some t 10 i k hio
        have := ih (k+1) d ls (by omega)
        omega
    rw [if_neg h3] at hr
    by_cases h4 : charAt t i = 47 ∧ charAt t (i+1) = 42
    · rw [if_pos h4] at hr
      rcases hfs : findSub2 t 42 47 (i+2) with _ | k
      · rw [hfs] at hr
        have hr2 : t.length = r := hr
        omega
      · rw [hfs] at hr
        have hr2 : carefulGo t t.length f (k+2) d ls = r := hr
        have hb := findSub2Go_some t 42 47 (t.length + 2) (i+2) k hfs
        have := ih (k+2) d ls (by omega)
        omega
    rw [if_neg h4] at hr
    by_cases h5 : charAt t i = 47 ∧ canStartRegex ls = true ∧
        charAt t (i+1) ≠ 47 ∧ charAt t (i+1) ≠ 42
    · rw [if_pos h5] at hr
      have hb := skipRegexLiteral_bounds t i (by omega)
      have := ih (skipRegexLiteral t i t.length) d 47 (by omega)
      omega
    rw [if_neg h5] at hr
    by_cases h6 : charAt t i = 96
    · rw [if_pos h6] at hr
      have hb := skipTemplateLiteral_bounds t i (by omega)
      have := ih (skipTemplateLiteral t i t.length) d 96 (by omega)
      omega
    rw [if_neg h6] at hr
    by_cases h7 : charAt t i = 34
    · rw [if_pos h7] at hr
      have hb := skipString_bounds t i 34 (by omega)
      have := ih (skipString t i 34) d 34 (by omega)
      omega
    rw [if_neg h7] at hr
    by_cases h8 : charAt t i = 39
    · rw [if_pos h8] at hr
      have hb := skipString_bounds t i 39 (by omega)
      have := ih (skipString t i 39) d 39 (by omega)
      omega
    rw [if_neg h8] at hr
    by_cases h9 : charAt t i = 123
    · rw [if_pos h9] at hr
      have := ih (i+1) (d+1) 123 (by omega); omega
    rw [if_neg h9] at hr
    by_cases h10 : charAt t i = 125
    · rw [if_pos h10] at hr
      by_cases h11 : d - 1 = 0
      · rw [if_pos h11] at hr; omega
      · rw [if_neg h11] at hr
        have := ih (i+1) (d-1) 125 (by omega); omega
    rw [if_neg h10] at hr
    have := ih (i+1) d (charAt t i) (by omega); omega

theorem findBlockEndOffsetCareful_bounds (t : List Nat) (s0 : Nat)
    (hs : s0 < t.length) :
    s0 < findBlockEndOffsetCareful t s0 t.length ∧
      findBlockEndOffsetCareful t s0 t.length ≤ t.length :=
  carefulGo_bounds t s0 hs (t.length + 2) (s0 + 1) 1 123 (by omega)

theorem afterOpenerSearch_bounds (t : List Nat) (s0 i : Nat)
    (hs : s0 < t.length) (hi : s0 ≤ i) :
    s0 < afterOpenerSearch t t.length i ∧
      afterOpenerSearch t t.length i ≤ t.length := by
  unfold afterOpenerSearch
  split
  · rename_i hbrace
    split
    · have := findBlockEndOffsetCareful_bounds t i (by omega)
      omega
    · have := fastBraceGo_bounds t t.length (t.length + 2) (i+1) 1
      omega
  · omega

theorem openerGo_bounds (t : List Nat) (s0 : Nat) (hs : s0 < t.length) :
    ∀ f i pd mpd ls, s0 ≤ i →
      s0 < openerGo t t.length f i pd mpd ls ∧
        openerGo t t.length f i pd mpd ls ≤ t.length := by
  intro f
  induction f with
  | zero => intro i pd mpd ls hi; rw [openerGo]; omega
  | succ f ih =>
    intro i pd mpd ls hi
    suffices h : ∀ r, openerGo t t.length (f+1) i pd mpd ls = r →
        s0 < r ∧ r ≤ t.length from h _ rfl
    intro r hr
    rw [openerGo] at hr
    split at hr
    · rename_i hin
      split at hr
      · have := ih (i+1) pd mpd ls (by omega); omega
      · split at hr
        · have hb := skipRegexLiteral_bounds t i (by omega)
          have := ih (skipRegexLiteral t i t.length) pd mpd 47 (by omega)
          omega
        · split at hr
          · rename_i hq
            have hss := skipString_bounds t i (charAt t i) (by omega)
            have hst := skipTemplateLiteral_bounds t i (by omega)
            split at hr
            · have := ih (skipTemplateLiteral t i t.length) pd mpd
                (charAt t i) (by omega)
              omega
            · have := ih (skipString t i (charAt t i)) pd mpd
                (charAt t i) (by omega)
              omega
          · split at hr
            · have := ih (i+1) (pd+1) (max mpd (pd+1)) 40 (by omega); omega
            · split at hr
              · have := ih (i+1) (pd-1) mpd 41 (by omega); omega
              · split at hr
                · have := afterOpenerSearch_bounds t s0 i hs hi; omega
                · split at hr
                  · omega
                  · have := ih (i+1) pd mpd (charAt t i) (by omega); omega
    · have := afterOpenerSearch_bounds t s0 i hs hi; omega

theorem findBlockEndOffset_bounds (t : List Nat) (s : Nat)
    (hs : s < t.length) :
    s < findBlockEndOffset t s ∧ findBlockEndOffset t s ≤ t.length :=
  openerGo_bounds t s hs (t.length + 2) s 0 0 0 (Nat.le_refl _)

theorem lineEnd10Go_bounds (t : List Nat) :
    ∀ f i, i ≤ lineEnd10Go t t.length f i ∧
      (lineEnd10Go t t.length f i ≤ t.length ∨
        lineEnd10Go t t.length f i = i) := by
  intro f
  induction f with
  | zero => intro i; simp [lineEnd10Go]
  | succ f ih =>
    intro i
    rw [lineEnd10Go]
    split
    · split
      · omega
      · have := ih (i+1); omega
    · omega

theorem findLineEnd10_ge (t : List Nat) (i : Nat) :
    i ≤ findLineEnd10 t i :=
  (lineEnd10Go_bounds t (t.length + 2) i).1

theorem findLineEnd10_le (t : List Nat) (i : Nat) (h : i ≤ t.length) :
    findLineEnd10 t i ≤ t.length := by
  have := lineEnd10Go_bounds t (t.length + 2) i
  unfold findLineEnd10
  omega

theorem findLineEnd10_pos (t : List Nat) (i : Nat) (hlen : i < t.length)
    (h : charAt t i ≠ 10) : i + 1 ≤ findLineEnd10 t i := by
  unfold findLineEnd10
  obtain ⟨f, hf⟩ : ∃ f, t.length + 2 = f + 1 := ⟨t.length + 1, by omega⟩
  rw [hf, lineEnd10Go, if_pos hlen, if_neg h]
  have := lineEnd10Go_bounds t f (i+1)
  unfold findLineEnd10 at *
  omega

theorem indentFromGo_bounds (t : List Nat) :
    ∀ f i acc, i ≤ (indentFromGo t t.length f i acc).2 ∧
      ((indentFromGo t t.length f i acc).2 ≤ t.length ∨
        (indentFromGo t t.length f i acc).2 = i) := by
  intro f
  induction f with
  | zero => intro i acc; simp [indentFromGo]
  | succ f ih =>
    intro i acc
    rw [indentFromGo]
    split
    · split
      · have := ih (i+1) (acc+1); omega
      · split
        · have := ih (i+1) (acc+4); omega
        · omega
    · omega

theorem indentFrom_snd_ge (t : List Nat) (i : Nat) :
    i ≤ (indentFrom t i).2 :=
  (indentFromGo_bounds t (t.length + 2) i 0).1

theorem indentFrom_snd_le (t : List Nat) (i : Nat) (h : i ≤ t.length) :
    (indentFrom t i).2 ≤ t.length := by
  have := indentFromGo_bounds t (t.length + 2) i 0
  unfold indentFrom
  omega

theorem pyGo_succ (t : List Nat) (len dI f pos lce li lp : Nat)
    (hp : pos < len) (hif : indentFrom t pos = (li, lp)) :
    pyGo t len dI (f+1) pos lce =
      if lp ≥ len ∨ charAt t lp = 10 then pyGo t len dI f (lp + 1) lce
      else if charAt t lp = 35 then
        if li > dI then
          pyGo t len dI f (findLineEnd10 t lp + 1) (findLineEnd10 t lp)
        else pyGo t len dI f (lp + 1) lce
      else if li ≤ dI then lce
      else pyGo t len dI f (findLineEnd10 t lp + 1) (findLineEnd10 t lp) := by
  rw [pyGo, if_pos hp, hif]

theorem pyGo_bounds (t : List Nat) (dI s : Nat) (hs : s < t.length) :
    ∀ f pos lce, s < pos → s < lce → lce ≤ t.length →
      s < pyGo t t.length dI f pos lce ∧
        pyGo t t.length dI f pos lce ≤ t.length := by
  intro f
  induction f with
  | zero => intro pos lce h1 h2 h3; rw [pyGo]; omega
  | succ f ih =>
    intro pos lce h1 h2 h3
    by_cases hp : pos < t.length
    swap
    · rw [pyGo, if_neg hp]; omega
    rcases hif : indentFrom t pos with ⟨li, lp⟩
    have hlp1 : pos ≤ lp := by
      have := indentFrom_snd_ge t pos; rw [hif] at this; exact this
    have hlp2 : lp ≤ t.length := by
      have := indentFrom_snd_le t pos (by omega); rw [hif] at this
      exact this
    rw [pyGo_succ t t.length dI f pos lce li lp hp hif]
    by_cases hb : lp ≥ t.length ∨ charAt t lp = 10
    · rw [if_pos hb]
      exact ih (lp + 1) lce (by omega) h2 h3
    rw [if_neg hb]
    have hfe1 : lp ≤ findLineEnd10 t lp := findLineEnd10_ge t lp
    have hfe2 : findLineEnd10 t lp ≤ t.length := findLineEnd10_le t lp hlp2
    by_cases hc : charAt t lp = 35
    · rw [if_pos hc]
      by_cases hd : li > dI
      · rw [if_pos hd]
        exact ih (findLineEnd10 t lp + 1) (findLineEnd10 t lp)
          (by omega) (by omega) hfe2
      · rw [if_neg hd]
        exact ih (lp + 1) lce (by omega) h2 h3
    rw [if_neg hc]
    by_cases he : li ≤ dI
    · rw [if_pos he]; omega
    rw [if_neg he]
    exact ih (findLineEnd10 t lp + 1) (findLineEnd10 t lp)
      (by omega) (by omega) hfe2

theorem findPythonBlockEndOffset_bounds (t : List Nat) (s : Nat)
    (hs : s < t.length) (h10 : charAt t s ≠ 10) :
    s < findPythonBlockEndOffset t s ∧
      findPythonBlockEndOffset t s ≤ t.length := by
  simp only [findPythonBlockEndOffset]
  have hp1 := findLineEnd10_pos t s hs h10
  have hp2 := findLineEnd10_le t s (by omega)
  by_cases hq : findLineEnd10 t s < t.length
  · rw [if_pos hq]
    exact pyGo_bounds t (indentFrom t (findLineStartBack t s)).1 s hs
      (t.length + 2) (findLineEnd10 t s + 1) (findLineEnd10 t s)
      (by omega) (by omega) hp2
  · rw [if_neg hq]
    exact pyGo_bounds t (indentFrom t (findLineStartBack t s)).1 s hs
      (t.length + 2) (findLineEnd10 t s) (findLineEnd10 t s)
      (by omega) (by omega) hp2

theorem isJsSpace_ten : isJsSpace 10 = true := by decide

theorem codeEndFor_bounds (t : List Nat) (a b : Bool) (fc : List Nat)
    (cs : Nat) (h1 : cs < t.length)
    (h2 : isJsSpace (charAt t cs) = false) :
    cs < codeEndFor t a b fc cs ∧ codeEndFor t a b fc cs ≤ t.length := by
  have h10 : charAt t cs ≠ 10 := by
    intro h
    rw [h] at h2
    rw [isJsSpace_ten] at h2
    cases h2
  unfold codeEndFor
  by_cases hic : isInlineCommentOf a fc = true
  · rw [if_pos hic]
    rcases hk : indexOfC t 10 cs with _ | k
    · simp only [Option.getD_none]; omega
    · simp only [Option.getD_some]
      have hb := indexOfC_some t 10 cs k hk
      have : cs ≠ k := by
        intro h
        exact h10 (by rw [h]; exact hb.2.2)
      omega
  · rw [if_neg hic]
    split
    · exact findPythonBlockEndOffset_bounds t cs h1 h10
    · exact findBlockEndOffset_bounds t cs h1

theorem fileLevelExec_some (hm : Bool) (t : List Nat) (w ce : Nat)
    (h : fileLevelExec hm t = some (w, ce)) : w < ce ∧ ce ≤ t.length := by
  unfold fileLevelExec at h
  by_cases hb : hm = true
  · rw [if_pos hb] at h
    split at h
    · rename_i hc
      injection h with h2
      injection h2 with hw hce
      subst hw
      subst hce
      have hwl : wsEnd t 0 < t.length :=
        lt_len_of_charAt_ne t (wsEnd t 0) (by rw [hc]; omega)
      have h1 := (dotEnd_bounds t (wsEnd t 0 + 1)).1
      have h2 := dotEnd_le t (wsEnd t 0 + 1) (by omega)
      omega
    · cases h
  · rw [if_neg hb] at h
    split at h
    · rename_i hc
      injection h with h2
      injection h2 with hw hce
      subst hw
      subst hce
      have hwb := startsWithAt_le t (codes "//") (wsEnd t 0) (by decide) hc
      have hw2 : (codes "//").length = 2 := by decide
      rw [hw2] at hwb
      have h1 := (dotEnd_bounds t (wsEnd t 0 + 2)).1
      have h2 := dotEnd_le t (wsEnd t 0 + 2) (by omega)
      omega
    · cases h

theorem checkFileLevelComment_some (t tagL : List Nat)
    (allowedL rejectedL : List (List Nat)) (dI hm uh : Bool)
    (r : FileLevelResult)
    (h : checkFileLevelComment t tagL allowedL rejectedL dI hm uh = some r) :
    r.flMatch.isFileLevel = true ∧
    r.flMatch.tagStartOffset < r.flMatch.tagEndOffset ∧
    r.flMatch.tagEndOffset ≤ r.flMatch.codeStartOffset ∧
    r.flMatch.codeStartOffset ≤ r.flMatch.codeEndOffset ∧
    r.flMatch.codeEndOffset = t.length := by
  unfold checkFileLevelComment at h
  rcases hfl : fileLevelExec hm t with _ | ⟨w, ce⟩
  · rw [hfl] at h
    cases h
  · rw [hfl] at h
    have hb := fileLevelExec_some hm t w ce hfl
    simp only at h
    split at h
    · cases h
    · rcases htg : tagExec tagL (sliceL t w ce) with _ | ⟨ti, tl, raw⟩
      · simp only [htg] at h
        cases h
      · simp only [htg] at h
        have hcom : (sliceL t w ce) ≠ [] := by
          intro hnil
          have := sliceL_length t w ce hb.2
          rw [hnil] at this
          simp at this
          omega
        have htb := tagExec_some tagL (sliceL t w ce) ti tl raw hcom htg
        rw [sliceL_length t w ce hb.2] at htb
        rcases hsd : stateDecision (cleanTagContent raw) allowedL rejectedL
          with _ | ty
        · simp only [hsd] at h
          cases h
        · simp only [hsd] at h
          cases h
          refine ⟨rfl, ?_, ?_, ?_, rfl⟩ <;> simp <;> omega

theorem scanLoop_mem (t : List Nat) (pid : PatternId) (tagL : List Nat)
    (allowedL rejectedL : List (List Nat)) (isPyOrHash isPython : Bool)
    (cancelled : Bool) (flBound : Option Nat) :
    ∀ f pos acc m,
      m ∈ scanLoop t pid tagL allowedL rejectedL isPyOrHash isPython
        cancelled flBound f pos acc →
      m ∈ acc ∨
        emittedMatch t pid tagL allowedL rejectedL isPyOrHash isPython m := by
  intro f
  induction f with
  | zero =>
    intro pos acc m hm
    rw [scanLoop] at hm
    exact Or.inl hm
  | succ f ih =>
    intro pos acc m hm
    rw [scanLoop] at hm
    rcases hex : execPattern pid t pos with _ | ⟨ms, me⟩
    · simp only [hex] at hm
      exact Or.inl hm
    · simp only [hex] at hm
      by_cases hskip : beforeBound flBound ms = true
      · rw [if_pos hskip] at hm
        exact ih me acc m hm
      rw [if_neg hskip] at hm
      by_cases hcan : cancelled = true
      · rw [if_pos hcan] at hm
        exact absurd hm (List.not_mem_nil m)
      rw [if_neg hcan] at hm
      rcases htg : tagExec tagL (sliceL t ms me) with _ | ⟨ti, tl, raw⟩
      · simp only [htg] at hm
        exact ih me acc m hm
      simp only [htg] at hm
      rcases hsd : stateDecision (cleanTagContent raw) allowedL rejectedL
        with _ | ty
      · simp only [hsd] at hm
        exact ih me acc m hm
      simp only [hsd] at hm
      rcases hnw : firstNonWsFrom t me with _ | cs
      · simp only [hnw] at hm
        exact ih me acc m hm
      simp only [hnw] at hm
      rcases ih me _ m hm with hacc | hem
      · rcases List.mem_append.mp hacc with h1 | h2
        · exact Or.inl h1
        · right
          refine ⟨ms, me, ti, tl, raw, ty, cs,
            (execPattern_some pid t pos ms me hex).2, htg, hsd, hnw, ?_⟩
          exact List.mem_singleton.mp h2
      · exact Or.inr hem

theorem acc0_mem (flRes : Option FileLevelResult) (m : DiagnosticMatch)
    (hm : m ∈ flInit flRes) :
    ∃ r, flRes = some r ∧ m = r.flMatch := by
  rcases flRes with _ | r
  · exact absurd hm (List.not_mem_nil m)
  · exact ⟨r, rfl, List.mem_singleton.mp hm⟩

theorem emittedMatch_bounds (t : List Nat) (pid : PatternId)
    (tagL : List Nat) (allowedL rejectedL : List (List Nat))
    (a b : Bool) (m : DiagnosticMatch)
    (h : emittedMatch t pid tagL allowedL rejectedL a b m) :
    m.tagStartOffset < m.tagEndOffset ∧
    m.tagEndOffset ≤ m.codeStartOffset ∧
    m.codeStartOffset < m.codeEndOffset ∧
    m.codeEndOffset ≤ t.length ∧
    m.isFileLevel = false := by
  obtain ⟨ms, me, ti, tl, raw, ty, cs, hmc, htg, hsd, hnw, rfl⟩ := h
  have hcb := matchCommentAt_bounds pid t ms me hmc
  have hsl := sliceL_length t ms me hcb.2
  have hcom : sliceL t ms me ≠ [] := by
    intro hnil
    rw [hnil] at hsl
    simp at hsl
    omega
  have htb := tagExec_some tagL (sliceL t ms me) ti tl raw hcom htg
  rw [hsl] at htb
  have hnwb := firstNonWsFrom_some t me cs hnw
  have hceb := codeEndFor_bounds t a b (sliceL t ms me) cs hnwb.2.1 hnwb.2.2
  dsimp only
  refine ⟨by omega, by omega, by omega, by omega, rfl⟩

/-- C1: for every text, configuration and (constant) cancellation state,
every match returned by `findAiGenDiagnostics` satisfies
`tagStartOffset < tagEndOffset ≤ codeStartOffset ≤ codeEndOffset ≤
length(T)` (the file-level match has `codeStartOffset = tagEndOffset`
when the tag match extends to the comment's end, which the `≤` chain
permits). -/
theorem c1_offset_chain (t : List Nat) (options : AnalyzerOptions)
    (cancelled : Bool) (m : DiagnosticMatch)
    (hm : m ∈ findAiGenDiagnostics t options cancelled) :
    m.tagStartOffset < m.tagEndOffset ∧
    m.tagEndOffset ≤ m.codeStartOffset ∧
    m.codeStartOffset ≤ m.codeEndOffset ∧
    m.codeEndOffset ≤ t.length := by
  simp only [findAiGenDiagnostics] at hm
  rcases scanLoop_mem _ _ _ _ _ _ _ _ _ _ _ _ _ hm with hacc | hem
  · obtain ⟨r, hflr, rfl⟩ := acc0_mem _ _ hacc
    by_cases hdf : options.detectFileLevel = true
    · rw [if_pos hdf] at hflr
      have hc := checkFileLevelComment_some _ _ _ _ _ _ _ r hflr
      omega
    · rw [if_neg hdf] at hflr
      cases hflr
  · have hb := emittedMatch_bounds _ _ _ _ _ _ _ _ hem
    omega

/-- Witness for C1 at a concrete text and its concrete returned match. -/
theorem c1_offset_chain_witness :
    (⟨4, 14, 15, 27, .warning, false⟩ : DiagnosticMatch).tagStartOffset <
      (⟨4, 14, 15, 27, .warning, false⟩ : DiagnosticMatch).tagEndOffset ∧
    (⟨4, 14, 15, 27, .warning, false⟩ : DiagnosticMatch).tagEndOffset ≤
      (⟨4, 14, 15, 27, .warning, false⟩ : DiagnosticMatch).codeStartOffset ∧
    (⟨4, 14, 15, 27, .warning, false⟩ : DiagnosticMatch).codeStartOffset ≤
      (⟨4, 14, 15, 27, .warning, false⟩ : DiagnosticMatch).codeEndOffset ∧
    (⟨4, 14, 15, 27, .warning, false⟩ : DiagnosticMatch).codeEndOffset ≤
      exC1w.length :=
  c1_offset_chain exC1w {} false _ (by decide)

/-- Counterexample for C5 as stated: on the text `// @ai-gen` (the leading
comment extends to the end of the text) the scan emits the file-level match
with `codeStartOffset = codeEndOffset = 10`, a zero-width code span. -/
theorem c5_counterexample :
    findAiGenDiagnostics exC5 {} false =
      [⟨3, 10, 10, 10, .warning, true⟩] ∧
    ((findAiGenDiagnostics exC5 {} false).any
      fun m => m.codeStartOffset == m.codeEndOffset) = true := by
  constructor <;> decide

/-- C5 amended: a non-file-level match never has a zero-width code span;
only the file-level match can have `codeStartOffset = codeEndOffset`
(exactly when the leading comment reaches the end of the text). -/
theorem c5_nonzero_span (t : List Nat) (options : AnalyzerOptions)
    (cancelled : Bool) (m : DiagnosticMatch)
    (hm : m ∈ findAiGenDiagnostics t options cancelled)
    (hfl : m.isFileLevel = false) :
    m.codeStartOffset < m.codeEndOffset := by
  simp only [findAiGenDiagnostics] at hm
  rcases scanLoop_mem _ _ _ _ _ _ _ _ _ _ _ _ _ hm with hacc | hem
  · obtain ⟨r, hflr, rfl⟩ := acc0_mem _ _ hacc
    by_cases hdf : options.detectFileLevel = true
    · rw [if_pos hdf] at hflr
      have hc := checkFileLevelComment_some _ _ _ _ _ _ _ r hflr
      rw [hc.1] at hfl
      cases hfl
    · rw [if_neg hdf] at hflr
      cases hflr
  · have hb := emittedMatch_bounds _ _ _ _ _ _ _ _ hem
    omega

/-- Witness for the amended C5 at a concrete text and match. -/
theorem c5_nonzero_span_witness :
    (⟨4, 14, 15, 27, .warning, false⟩ : DiagnosticMatch).codeStartOffset <
      (⟨4, 14, 15, 27, .warning, false⟩ : DiagnosticMatch).codeEndOffset :=
  c5_nonzero_span exC5w {} false _ (by decide) (by decide)

theorem emittedMatch_tag_in_comment (t : List Nat) (pid : PatternId)
    (tagL : List Nat) (allowedL rejectedL : List (List Nat))
    (a b : Bool) (m : DiagnosticMatch)
    (h : emittedMatch t pid tagL allowedL rejectedL a b m) :
    ∃ s e, matchCommentAt pid t s = some e ∧ s ≤ m.tagStartOffset ∧
      m.tagEndOffset ≤ e := by
  obtain ⟨ms, me, ti, tl, raw, ty, cs, hmc, htg, hsd, hnw, rfl⟩ := h
  have hcb := matchCommentAt_bounds pid t ms me hmc
  have hsl := sliceL_length t ms me hcb.2
  have hcom : sliceL t ms me ≠ [] := by
    intro hnil
    rw [hnil] at hsl
    simp at hsl
    omega
  have htb := tagExec_some tagL (sliceL t ms me) ti tl raw hcom htg
  rw [hsl] at htb
  refine ⟨ms, me, hmc, ?_, ?_⟩ <;> dsimp only <;> omega

theorem sliceL_take_one (t : List Nat) (w ce : Nat) (h1 : w < t.length)
    (h2 : w < ce) : (sliceL t w ce).take 1 = [charAt t w] := by
  unfold sliceL charAt
  rw [List.take_take]
  have hmin : min 1 (ce - w) = 1 := by omega
  rw [hmin]
  rw [List.drop_eq_getElem_cons h1]
  rw [List.take_succ_cons, List.take_zero]
  rw [List.getD_eq_getElem?_getD, List.getElem?_eq_getElem h1]
  rfl

theorem sliceL_take_two (t : List Nat) (w ce : Nat) (h2 : w + 2 ≤ ce) :
    (sliceL t w ce).take 2 = sliceL t w (w + 2) := by
  unfold sliceL
  rw [List.take_take]
  have hmin : min 2 (ce - w) = 2 := by omega
  rw [hmin]
  have : w + 2 - w = 2 := by omega
  rw [this]

theorem checkFileLevelComment_inline_off (t tagL : List Nat)
    (allowedL rejectedL : List (List Nat)) (b : Bool) :
    checkFileLevelComment t tagL allowedL rejectedL false b b = none := by
  unfold checkFileLevelComment
  rcases hfl : fileLevelExec b t with _ | ⟨w, ce⟩
  · rfl
  · have hb := fileLevelExec_some b t w ce hfl
    simp only
    rw [if_pos]
    constructor
    · unfold fileLevelExec at hfl
      by_cases hbb : b = true
      · subst hbb
        rw [if_pos rfl] at hfl
        split at hfl
        · rename_i hc
          injection hfl with h2
          injection h2 with hw hce
          subst hw
          subst hce
          have hwl : wsEnd t 0 < t.length :=
            lt_len_of_charAt_ne t (wsEnd t 0) (by rw [hc]; omega)
          unfold isInlineCommentOf
          rw [if_pos rfl, sliceL_take_one t _ _ hwl hb.1, hc]
          rfl
        · cases hfl
      · have hbf : b = false := by
          cases b
          · rfl
          · exact absurd rfl hbb
        subst hbf
        rw [if_neg (by simp)] at hfl
        split at hfl
        · rename_i hc
          injection hfl with h2
          injection h2 with hw hce
          subst hw
          subst hce
          have hwb := startsWithAt_le t (codes "//") (wsEnd t 0) (by decide) hc
          have hw2 : (codes "//").length = 2 := by decide
          rw [hw2] at hwb
          unfold isInlineCommentOf
          rw [if_neg (by simp),
            sliceL_take_two t _ _ ((dotEnd_bounds t (wsEnd t 0 + 2)).1)]
          simp only [startsWithAt] at hc
          rw [hw2] at hc
          exact hc
        · cases hfl
    · simp

/-- Counterexample for C7 as stated: for the hash family with
`detectInline = false`, a tag occurring only inside a `#` line comment
still produces a match (the source reuses the line-comment pattern as the
"doc-block" pattern for hash-only languages). -/
theorem c7_counterexample :
    findAiGenDiagnostics exC7 exC7opts false =
      [⟨4, 11, 12, 17, .warning, false⟩] ∧
    findAiGenDiagnostics exC7 exC7opts false ≠ [] := by
  constructor <;> decide

/-- C7 amended: for the JavaScript and Python families, when
`detectInline = false` no file-level match is returned and every returned
match's tag lies inside a doc-block comment (a span matched by the
family's doc-block pattern); hence a tag occurring only inside a
single-line comment never produces a match for those families. -/
theorem c7_doc_blocks_only (t : List Nat) (options : AnalyzerOptions)
    (cancelled : Bool) (m : DiagnosticMatch)
    (hdi : options.detectInline = false)
    (hl : options.language = .javascript ∨ options.language = .python)
    (hm : m ∈ findAiGenDiagnostics t options cancelled) :
    m.isFileLevel = false ∧
    ∃ s e, matchCommentAt (docPatternId options.language) t s = some e ∧
      s ≤ m.tagStartOffset ∧ m.tagEndOffset ≤ e := by
  obtain ⟨dI2, dFL, tg, aS, rS, lang⟩ := options
  dsimp only at hdi hl hm ⊢
  subst hdi
  rcases hl with hl | hl <;> subst hl
  · simp only [findAiGenDiagnostics] at hm
    rw [show (decide (LanguageType.javascript = LanguageType.python ∨
          LanguageType.javascript = LanguageType.hash)) = false from rfl,
      show (decide (LanguageType.javascript = LanguageType.python)) = false
        from rfl,
      show flHashMark LanguageType.javascript = false from rfl,
      show (if (false : Bool) = true then
          allPatternId LanguageType.javascript
        else docPatternId LanguageType.javascript) = PatternId.jsDoc
        from rfl] at hm
    simp only [checkFileLevelComment_inline_off, ite_self,
      Option.map_none'] at hm
    rcases scanLoop_mem _ _ _ _ _ _ _ _ _ _ _ _ _ hm with hacc | hem
    · exact absurd hacc (List.not_mem_nil m)
    · refine ⟨(emittedMatch_bounds _ _ _ _ _ _ _ _ hem).2.2.2.2, ?_⟩
      rw [show docPatternId LanguageType.javascript = PatternId.jsDoc
        from rfl]
      exact emittedMatch_tag_in_comment _ _ _ _ _ _ _ _ hem
  · simp only [findAiGenDiagnostics] at hm
    rw [show (decide (True ∨ LanguageType.python = LanguageType.hash)) =
        true from rfl,
      show (decide True) = true from rfl,
      show flHashMark LanguageType.python = true from rfl,
      show (if (false : Bool) = true then
          allPatternId LanguageType.python
        else docPatternId LanguageType.python) = PatternId.pyDoc
        from rfl] at hm
    simp only [checkFileLevelComment_inline_off, ite_self,
      Option.map_none'] at hm
    rcases scanLoop_mem _ _ _ _ _ _ _ _ _ _ _ _ _ hm with hacc | hem
    · exact absurd hacc (List.not_mem_nil m)
    · refine ⟨(emittedMatch_bounds _ _ _ _ _ _ _ _ hem).2.2.2.2, ?_⟩
      rw [show docPatternId LanguageType.python = PatternId.pyDoc from rfl]
      exact emittedMatch_tag_in_comment _ _ _ _ _ _ _ _ hem

/-- Witness for the amended C7 at a concrete text and match. -/
theorem c7_doc_blocks_only_witness :
    (⟨4, 14, 15, 17, .warning, false⟩ : DiagnosticMatch).isFileLevel =
      false ∧
    ∃ s e, matchCommentAt (docPatternId exC7wOpts.language) exC7w s =
        some e ∧
      s ≤ (⟨4, 14, 15, 17, .warning, false⟩ :
        DiagnosticMatch).tagStartOffset ∧
      (⟨4, 14, 15, 17, .warning, false⟩ :
        DiagnosticMatch).tagEndOffset ≤ e :=
  c7_doc_blocks_only exC7w exC7wOpts false _ (by decide) (Or.inl (by decide))
    (by decide)

theorem scanLoop_cancelled (t : List Nat) (pid : PatternId)
    (tagL : List Nat) (allowedL rejectedL : List (List Nat))
    (a b : Bool) (flBound : Option Nat) :
    ∀ f pos acc,
      scanLoop t pid tagL allowedL rejectedL a b true flBound f pos acc =
        acc ∨
      scanLoop t pid tagL allowedL rejectedL a b true flBound f pos acc =
        [] := by
  intro f
  induction f with
  | zero => intro pos acc; rw [scanLoop]; exact Or.inl rfl
  | succ f ih =>
    intro pos acc
    rcases hex : execPattern pid t pos with _ | ⟨ms, me⟩ <;>
      simp only [scanLoop, hex]
    · exact Or.inl trivial
    · by_cases hskip : beforeBound flBound ms = true
      · rw [if_pos hskip]
        exact ih me acc
      · rw [if_neg hskip]
        exact Or.inr rfl

theorem cancelledResult (t : List Nat) (pid : PatternId) (tagL : List Nat)
    (allowedL rejectedL : List (List Nat)) (a b : Bool)
    (flBound : Option Nat) (f pos : Nat) (flRes : Option FileLevelResult)
    (hfl : ∀ r, flRes = some r → r.flMatch.isFileLevel = true) :
    scanLoop t pid tagL allowedL rejectedL a b true flBound f pos
      (flInit flRes) = [] ∨
    ∃ m, scanLoop t pid tagL allowedL rejectedL a b true flBound f pos
        (flInit flRes) = [m] ∧
      m.isFileLevel = true := by
  rcases scanLoop_cancelled t pid tagL allowedL rejectedL a b flBound f pos
    (flInit flRes) with h | h
  · rcases flRes with _ | r
    · rw [h]
      exact Or.inl rfl
    · exact Or.inr ⟨r.flMatch, h, hfl r rfl⟩
  · exact Or.inl h

/-- Counterexample for C4 as stated: with the cancellation token already in
the cancelled state, scanning `// @ai-gen` (every main-pattern comment lies
inside the file-level span, so the `continue` on line 109 fires before the
cancellation check on line 113) returns the file-level match, not the empty
list. -/
theorem c4_counterexample :
    findAiGenDiagnostics exC4 {} true = [⟨3, 10, 10, 10, .warning, true⟩] ∧
    findAiGenDiagnostics exC4 {} true ≠ [] := by
  constructor <;> decide

/-- C4 amended: a scan whose cancellation token is cancelled throughout
returns either the empty list or a one-element list holding only the
file-level match; the latter happens exactly when every comment found by
the main pattern starts before the file-level skip boundary. -/
theorem c4_cancelled_result (t : List Nat) (options : AnalyzerOptions) :
    findAiGenDiagnostics t options true = [] ∨
    ∃ m, findAiGenDiagnostics t options true = [m] ∧
      m.isFileLevel = true := by
  simp only [findAiGenDiagnostics]
  apply cancelledResult
  intro r h
  by_cases hdf : options.detectFileLevel = true
  · rw [if_pos hdf] at h
    exact (checkFileLevelComment_some _ _ _ _ _ _ _ r h).1
  · rw [if_neg hdf] at h
    cases h

/-- C2 (code bug): on the block `f() { a = /}/; }` (opening brace at
offset 4, length 16) the fast-path precondition holds — the region after
the opening brace contains no quote, backtick, or comment opener, since
`hasComplexContentInRange` does not flag a regex literal — so
`findBlockEndOffset` takes the fast path and returns 12 (the `}` inside
the regex literal), while the careful path returns 16 (it skips the regex
literal).  The fast/careful choice changes the result. -/
theorem c2_fast_careful_divergence :
    hasComplexContentInRange exC2 5 16 = false ∧
    findBlockEndOffset exC2 0 = 12 ∧
    findBlockEndOffsetCareful exC2 4 16 = 16 ∧
    findBlockEndOffset exC2 0 ≠ findBlockEndOffsetCareful exC2 4 16 := by
  refine ⟨by decide, by decide, by decide, by decide⟩

/-- Counterexample for C3 as stated: on
`def foo():\n    x = 1\n# c\n    y = 2\nz\n` with start offset 0, the
sibling comment `# c` (indent 0) does not terminate the scan — the
resolver returns 34 (end of the `    y = 2` line, which lies after the
sibling comment) instead of 20 (end of the last content line before the
sibling comment). -/
theorem c3_counterexample :
    findPythonBlockEndOffset exC3 0 = 34 ∧
    findPythonBlockEndOffset exC3 0 ≠ 20 := by
  constructor <;> decide

/-- C3 amended: a comment line at or below the declaration's indentation
is handled by skipping its `#` and rescanning the remainder of the same
line; when that remainder begins with at most the declaration's indent of
whitespace followed by a character that is neither `#` nor a newline, the
scan stops and returns the current last content end — the sibling comment
line is not included.  (Otherwise — as the counterexample shows — the scan
continues and may include later lines.) -/
theorem c3_sibling_comment_stop (t : List Nat)
    (dI f pos lce li lp li2 lp2 : Nat)
    (hp : pos < t.length)
    (hif : indentFrom t pos = (li, lp))
    (hlp : lp < t.length) (h35 : charAt t lp = 35)
    (hle : li ≤ dI)
    (hif2 : indentFrom t (lp + 1) = (li2, lp2))
    (hlp2 : lp2 < t.length) (h10b : charAt t lp2 ≠ 10)
    (h35b : charAt t lp2 ≠ 35) (hle2 : li2 ≤ dI) :
    pyGo t t.length dI (f + 2) pos lce = lce := by
  have h10 : charAt t lp ≠ 10 := by rw [h35]; omega
  rw [show f + 2 = (f + 1) + 1 from rfl,
    pyGo_succ t t.length dI (f+1) pos lce li lp hp hif]
  rw [if_neg (by
    intro hcon
    rcases hcon with hcon | hcon
    · omega
    · exact h10 hcon)]
  rw [if_pos h35, if_neg (by omega : ¬ li > dI)]
  have hlp1 : lp + 1 ≤ lp2 := by
    have := indentFrom_snd_ge t (lp + 1)
    rw [hif2] at this
    exact this
  rw [pyGo_succ t t.length dI f (lp+1) lce li2 lp2 (by omega) hif2]
  rw [if_neg (by
    intro hcon
    rcases hcon with hcon | hcon
    · omega
    · exact h10b hcon)]
  rw [if_neg h35b, if_pos hle2]

/-- Witness for the amended C3 at the concrete text
`def f():\n    a = 1\n#note\nb = 2\n`: the sibling comment `#note`
(its `#` directly followed by a letter) stops the scan at the previous
content end 18. -/
theorem c3_sibling_comment_stop_witness :
    pyGo exC3w exC3w.length 0 12 19 18 = 18 :=
  c3_sibling_comment_stop exC3w 0 10 19 18 0 19 0 20 (by decide) (by decide)
    (by decide) (by decide) (by decide) (by decide) (by decide) (by decide)
    (by decide) (by decide)

/-- C6 (code bug): the repository's own test suite calls the analyzer with
`includeAllowed: true` on this text and expects one match with type
`allowed`, but `AnalyzerOptions` has no `includeAllowed` field and
`DiagnosticMatch` has no `allowed` type: the allowed-state tag is always
dropped, and the scan returns the empty list. -/
theorem c6_allowed_always_dropped :
    findAiGenDiagnostics exC6 {} false = [] := by decide

theorem readLI_writeLI (s : RegexState) (pid : PatternId) (v : Nat) :
    readLI (writeLI s pid v) pid = v := by
  cases pid <;> rfl

theorem readLI_set_nonWs (s : RegexState) (pid : PatternId) (x : Nat) :
    readLI { s with nonWs := x } pid = readLI s pid := by
  cases pid <;> rfl

theorem nonWs_set (s : RegexState) (x : Nat) :
    ({ s with nonWs := x } : RegexState).nonWs = x := rfl

theorem scanLoopS_fst (t : List Nat) (pid : PatternId) (tagL : List Nat)
    (allowedL rejectedL : List (List Nat)) (a b c : Bool)
    (flBound : Option Nat) :
    ∀ f s acc,
      (scanLoopS t pid tagL allowedL rejectedL a b c flBound f s acc).1 =
        scanLoop t pid tagL allowedL rejectedL a b c flBound f
          (readLI s pid) acc := by
  intro f
  induction f with
  | zero => intro s acc; rw [scanLoopS, scanLoop]
  | succ f ih =>
    intro s acc
    rcases hex : execPattern pid t (readLI s pid) with _ | ⟨ms, me⟩ <;>
      simp only [scanLoopS, scanLoop, execPatternG, hex]
    by_cases hskip : beforeBound flBound ms = true
    · rw [if_pos hskip, if_pos hskip, ih, readLI_writeLI]
    rw [if_neg hskip, if_neg hskip]
    by_cases hcan : c = true
    · rw [if_pos hcan, if_pos hcan]
    rw [if_neg hcan, if_neg hcan]
    rcases htg : tagExec tagL (sliceL t ms me) with _ | ⟨ti, tl, raw⟩ <;>
      simp only [htg]
    · rw [ih, readLI_writeLI]
    rcases hsd : stateDecision (cleanTagContent raw) allowedL rejectedL
      with _ | ty <;> simp only [hsd]
    · rw [ih, readLI_writeLI]
    rcases hnw : firstNonWsFrom t me with _ | cs <;>
      simp only [firstNonWsG, nonWs_set, hnw]
    · rw [ih, readLI_set_nonWs, readLI_writeLI]
    · rw [ih, readLI_set_nonWs, readLI_writeLI]

theorem findAiGenDiagnosticsS_fst (t : List Nat)
    (options : AnalyzerOptions) (c : Bool) (s0 : RegexState) :
    (findAiGenDiagnosticsS t options c s0).1 =
      findAiGenDiagnostics t options c := by
  simp only [findAiGenDiagnosticsS, findAiGenDiagnostics]
  rw [scanLoopS_fst, readLI_writeLI]

/-- C8: the scan is deterministic and stateless across sequential
invocations despite the module-level shared regex objects: threading any
initial `lastIndex` state through the stateful model gives the same
result as the pure scan, and running the stateful scan twice in a row
(the second run starting from the first run's final regex state) yields
identical result lists. -/
theorem c8_idempotent_stateless (t : List Nat) (options : AnalyzerOptions)
    (s0 : RegexState) :
    (findAiGenDiagnosticsS t options false s0).1 =
      findAiGenDiagnostics t options false ∧
    (findAiGenDiagnosticsS t options false
        (findAiGenDiagnosticsS t options false s0).2).1 =
      (findAiGenDiagnosticsS t options false s0).1 := by
  refine ⟨findAiGenDiagnosticsS_fst t options false s0, ?_⟩
  rw [findAiGenDiagnosticsS_fst, findAiGenDiagnosticsS_fst]

/-- C9: each lexical skipper strictly advances the cursor — for every
start offset below the text length, `skipString`, `skipTemplateLiteral`
and `skipRegexLiteral` return an offset strictly greater than the start
and at most the text length (so the scanning loops of the block extent
resolver that continue at these offsets always progress). -/
theorem c9_skippers_advance (t : List Nat) (start q : Nat)
    (h : start < t.length) :
    (start < skipString t start q ∧ skipString t start q ≤ t.length) ∧
    (start < skipTemplateLiteral t start t.length ∧
      skipTemplateLiteral t start t.length ≤ t.length) ∧
    (start < skipRegexLiteral t start t.length ∧
      skipRegexLiteral t start t.length ≤ t.length) :=
  ⟨skipString_bounds t start q h, skipTemplateLiteral_bounds t start h,
    skipRegexLiteral_bounds t start h⟩

/-- Witness for C9 at the concrete text `abcde`, start offset 0. -/
theorem c9_skippers_advance_witness :
    0 < exC9w.length ∧
    ((0 < skipString exC9w 0 39 ∧ skipString exC9w 0 39 ≤ exC9w.length) ∧
      (0 < skipTemplateLiteral exC9w 0 exC9w.length ∧
        skipTemplateLiteral exC9w 0 exC9w.length ≤ exC9w.length) ∧
      (0 < skipRegexLiteral exC9w 0 exC9w.length ∧
        skipRegexLiteral exC9w 0 exC9w.length ≤ exC9w.length)) :=
  ⟨by decide, c9_skippers_advance exC9w 0 39 (by decide)⟩

/-- C10: state classification compares the entire normalized trailing
text for equality, never by prefix: whenever the full content (an allowed
word followed by a space and further words) is itself in neither
configured set, the decision is `warning` — the match is kept, not
dropped — even though it begins with an allowed word; concretely, the
scan of `/** @ai-gen ok later */` above `const x = 1;` emits one warning
match. -/
theorem c10_equality_not_prefix :
    (∀ (allowedL rejectedL : List (List Nat)) (w rest : List Nat),
      allowedL.contains w = true →
      allowedL.contains (w ++ 32 :: rest) = false →
      rejectedL.contains (w ++ 32 :: rest) = false →
      stateDecision (w ++ 32 :: rest) allowedL rejectedL =
        some MatchType.warning) ∧
    findAiGenDiagnostics exC10 {} false =
      [⟨4, 23, 24, 36, .warning, false⟩] := by
  constructor
  · intro aL rL w rest hw ha hr
    unfold stateDecision
    rw [if_neg (by rw [ha]; exact Bool.false_ne_true),
      if_neg (by rw [hr]; exact Bool.false_ne_true)]
  · decide

/-- Witness for C10: the classifier keeps `ok later` as a warning under
the default sets even though `ok` alone is allowed. -/
theorem c10_equality_not_prefix_witness :
    stateDecision (codes "ok" ++ 32 :: codes "later") [codes "ok"]
      [codes "rejected", codes "reject"] = some MatchType.warning :=
  c10_equality_not_prefix.1 [codes "ok"] [codes "rejected", codes "reject"]
    (codes "ok") (codes "later") (by decide) (by decide) (by decide)

end AckAi
